import Mathlib

/-!
# Verification of the `ustr` string-interning crate

This file shallowly embeds the core of the `ustr` crate — the sharded
string cache (`src/stringcache.rs`), the leaky bump allocator
(`src/bumpalloc.rs`) and the public surface (`src/lib.rs`) — and proves
the specified properties about it.

Modelling conventions:

* Rust `&str` values are modelled by their UTF-8 byte sequences
  (`Bytes := List Nat`).
* Machine integers (`u64`, `usize`) are modelled as `Nat`; the places
  where wrap-around could matter are noted at the definitions.
* The character pointer handed out for an interned string is modelled
  abstractly: each shard carries a ghost `store` listing every entry it
  ever allocated in allocation order, and a pointer is the index of the
  entry in that list.  Distinct allocations have distinct indices,
  mirroring distinct addresses.  A process-wide pointer is the pair
  (shard index, store index).
* Code that can panic, abort, or touch invalid memory (out-of-bounds
  `get_unchecked`, dangling entry pointers, the allocator's abort path,
  unbounded probe loops) is modelled with `Option`: `none` is the
  fatal/undefined outcome.  Loops that the source writes as unbounded
  `loop { .. }` are given explicit fuel; exhausting the fuel also
  yields `none`.
* The hash function (AHash in the source) is an external dependency; it
  enters only as an arbitrary function parameter `H : Bytes → Nat`, the
  way `Ustr::from` computes `hash` once from the input bytes.
-/

/-- A Rust `&str` value, modelled as its sequence of UTF-8 bytes. -/
abbrev Bytes := List Nat

/-- `StringCacheEntry` (src/stringcache.rs, lines 375-380): the 16-byte
header `{ hash: u64, len: usize }` together with the character bytes that
`insert` copies directly after the header (`chars` does not include the
trailing NUL, which `insert` writes separately and which `charByte`
below accounts for). -/
structure StringCacheEntry where
  hash : Nat
  len : Nat
  chars : Bytes

/-- `size_of::<StringCacheEntry>()` on a 64-bit system: 8 bytes of hash
plus 8 bytes of length. -/
def sizeOfEntryHeader : Nat := 16

/-- `align_of::<StringCacheEntry>()` on a 64-bit system. -/
def alignOfEntry : Nat := 8

/-- `x & !(align - 1)` for a power-of-two `align`: round `x` down to a
multiple of `align`. -/
def alignDown (x align : Nat) : Nat := x - x % align

/-- `round_up_to` (src/stringcache.rs, lines 335-338):
`(n + align - 1) & !(align - 1)`. -/
def round_up_to (n align : Nat) : Nat := alignDown (n + align - 1) align

/-- The iterative triangular probe positions of the source loops
(src/stringcache.rs lines 85-86 and 116-119): `pos = mask & hash`
initially, then `dist += 1; pos = (pos + dist) & mask`. -/
def posIter (hash mask : Nat) : Nat → Nat
  | 0 => mask &&& hash
  | d + 1 => (posIter hash mask d + (d + 1)) &&& mask

/-- The d-th triangular number 0, 1, 3, 6, 10, …: the cumulative probe
offset after `d` steps. -/
def tri : Nat → Nat
  | 0 => 0
  | d + 1 => tri d + (d + 1)

/-- The byte of memory at `char_ptr + i` inside an entry's character
area: the copied string bytes followed by the trailing NUL written at
src/stringcache.rs line 230.  Reading past the NUL (into padding or a
neighbouring entry) is undefined and modelled as `none`. -/
def StringCacheEntry.charByte (e : StringCacheEntry) (i : Nat) : Option Nat :=
  (e.chars ++ [0])[i]?

/-- The slice `from_raw_parts(entry_chars, n)`: `n` bytes read from the
start of an entry's character area. -/
def StringCacheEntry.readChars (e : StringCacheEntry) (n : Nat) : Bytes :=
  (e.chars ++ [0]).take n

/-- Total arena footprint of an entry (`StringCacheEntry::next_entry`,
src/stringcache.rs lines 392-398): header plus characters plus NUL,
rounded up to the entry alignment. -/
def StringCacheEntry.footprint (e : StringCacheEntry) : Nat :=
  sizeOfEntryHeader + round_up_to (e.len + 1) alignOfEntry

/-! ## The bump allocator (src/bumpalloc.rs)

`start` is the address handed back by the system allocator; the shard
model instantiates it with 0 (a shard never compares addresses across
arenas).  `content` is a ghost field listing the store indices of the
entries allocated from this arena, most recent (lowest address) first;
it stands for the parsed contents of the handed-out range
`[ptr, end)`. -/
structure LeakyBumpAlloc where
  capacity : Nat
  align : Nat
  start : Nat
  ptr : Nat
  content : List Nat

namespace LeakyBumpAlloc

/-- `LeakyBumpAlloc::new` (src/bumpalloc.rs lines 18-32): cursor starts
at `end = start + capacity`. -/
def new (capacity align start : Nat) : LeakyBumpAlloc :=
  { capacity := capacity, align := align, start := start
    ptr := start + capacity, content := [] }

/-- `end()`: one past the last byte of the arena. -/
def endAddr (a : LeakyBumpAlloc) : Nat := a.start + a.capacity

/-- `allocated()`: `end - ptr`. -/
def allocated (a : LeakyBumpAlloc) : Nat := a.endAddr - a.ptr

/-- `allocate` (src/bumpalloc.rs lines 41-61).  `none` models either the
`checked_sub` panic (the new cursor would underflow the address space)
or the `abort()` taken when the aligned cursor falls below `start`. -/
def allocate (a : LeakyBumpAlloc) (num_bytes : Nat) : Option (Nat × LeakyBumpAlloc) :=
  if a.ptr < num_bytes then none
  else
    let new_ptr := alignDown (a.ptr - num_bytes) a.align
    if new_ptr < a.start then none
    else some (new_ptr, { a with ptr := new_ptr })

end LeakyBumpAlloc

/-! ## The shard (src/stringcache.rs) -/

/-- Constants, src/stringcache.rs lines 44-54. -/
def INITIAL_CAPACITY : Nat := 1 <<< 20

def INITIAL_ALLOC : Nat := 4 <<< 20

def BIN_SHIFT : Nat := 6

def NUM_BINS : Nat := 1 <<< BIN_SHIFT

/-- `8 * size_of::<usize>()` on a 64-bit system is 64. -/
def TOP_SHIFT : Nat := 8 * 8 - BIN_SHIFT

/-- One shard of the cache.  `entries` is the open-addressed slot table
(`None` = null pointer); a `some p` slot stores the abstract pointer
`p`, an index into the ghost `store` of all entries this shard ever
allocated, in allocation order. -/
structure StringCache where
  alloc : LeakyBumpAlloc
  old_allocs : List LeakyBumpAlloc
  entries : List (Option Nat)
  store : List StringCacheEntry
  num_entries : Nat
  mask : Nat
  total_allocated : Nat

/-- `StringCache::new` (src/stringcache.rs lines 58-78). -/
def StringCache.new : StringCache :=
  let capacity := INITIAL_CAPACITY / NUM_BINS
  { alloc := LeakyBumpAlloc.new (INITIAL_ALLOC / NUM_BINS) alignOfEntry 0
    old_allocs := []
    entries := List.replicate capacity none
    store := []
    num_entries := 0
    mask := capacity - 1
    total_allocated := capacity }

/-- The candidate test shared by the probe loops of `get_existing`
(lines 105-109) and `insert` (lines 147-151): stored hash equals the
query hash, stored length equals the query length, and the `sce.len`
bytes at the entry's character pointer equal the query string. -/
def entryMatches (e : StringCacheEntry) (s : Bytes) (hash : Nat) : Prop :=
  e.hash = hash ∧ e.len = s.length ∧ e.readChars e.len = s

instance (e : StringCacheEntry) (s : Bytes) (hash : Nat) :
    Decidable (entryMatches e s hash) := by
  unfold entryMatches; infer_instance

/-- Result of the shared probe loop: a matching entry (its pointer), or
the first null slot (its position). -/
inductive ProbeResult where
  | found : Nat → ProbeResult
  | slotFree : Nat → ProbeResult

/-- The triangular probe loop shared by `get_existing` (lines 87-121)
and `insert` (lines 127-162): starting from `pos = mask & hash` with
`dist = 0`, stop at a null slot or a matching entry, else
`dist += 1; pos = (pos + dist) & mask`.  The source loop is unbounded;
here it runs on fuel, and `none` models non-termination, the
out-of-bounds `get_unchecked`, or a dangling slot pointer. -/
def probeLoop (entries : List (Option Nat)) (store : List StringCacheEntry)
    (s : Bytes) (hash mask : Nat) : Nat → Nat → Nat → Option ProbeResult
  | 0, _, _ => none
  | fuel + 1, pos, dist =>
    match entries[pos]? with
    | none => none
    | some none => some (.slotFree pos)
    | some (some p) =>
      match store[p]? with
      | none => none
      | some e =>
        if entryMatches e s hash then some (.found p)
        else probeLoop entries store s hash mask fuel ((pos + (dist + 1)) &&& mask) (dist + 1)

/-- `StringCache::get_existing` (src/stringcache.rs lines 80-121).
The inner `Option` is the function's own result (`None` = not present);
the outer `Option` is definedness of the run. -/
def StringCache.get_existing (c : StringCache) (s : Bytes) (hash : Nat) :
    Option (Option Nat) :=
  match probeLoop c.entries c.store s hash c.mask (c.mask + 2) (c.mask &&& hash) 0 with
  | none => none
  | some (.found p) => some (some p)
  | some (.slotFree _) => some none

/-- First-empty-slot search of `grow`'s relocation loop
(src/stringcache.rs lines 262-273): same triangular stepping, no
matching, stops at the first null slot of the new table. -/
def findEmptySlot (tbl : List (Option Nat)) (mask : Nat) : Nat → Nat → Nat → Option Nat
  | 0, _, _ => none
  | fuel + 1, pos, dist =>
    match tbl[pos]? with
    | none => none
    | some none => some pos
    | some (some _) => findEmptySlot tbl mask fuel ((pos + (dist + 1)) &&& mask) (dist + 1)

/-- The relocation fold of `grow` (src/stringcache.rs lines 252-280):
walk the old slot table; for each non-null slot read the entry's hash
through its pointer, find a free slot in the new table, store the
pointer there, and stop early once `to_copy` reaches zero.  (In the
source `to_copy -= 1` on a `usize` would wrap if a non-null slot were
found with `to_copy = 0`; that state is excluded by the cache invariant
and modelled here with truncating subtraction.) -/
def growLoop (store : List StringCacheEntry) (new_mask : Nat) :
    List (Option Nat) → List (Option Nat) → Nat → Option (List (Option Nat))
  | [], acc, _ => some acc
  | none :: rest, acc, to_copy => growLoop store new_mask rest acc to_copy
  | some p :: rest, acc, to_copy =>
    match store[p]? with
    | none => none
    | some e =>
      match findEmptySlot acc new_mask (new_mask + 2) (e.hash &&& new_mask) 0 with
      | none => none
      | some pos =>
        let acc' := acc.set pos (some p)
        let to_copy' := to_copy - 1
        if to_copy' = 0 then some acc'
        else growLoop store new_mask rest acc' to_copy'

/-- `StringCache::grow` (src/stringcache.rs lines 247-284): double the
slot table, relocate every entry pointer, leave the entries themselves
(the `store`) untouched. -/
def StringCache.grow (c : StringCache) : Option StringCache :=
  let new_mask := c.mask * 2 + 1
  (growLoop c.store new_mask c.entries (List.replicate (new_mask + 1) none) c.num_entries).map
    fun ne => { c with entries := ne, mask := new_mask }

/-- The arena-retirement block of `insert` (src/stringcache.rs
lines 178-200): if the new allocation would spill over the current
arena, move it into `old_allocs` and install a fresh one of capacity
`max(capacity * 2, alloc_size)`.  (The source's `checked_add` /
`checked_mul` panics cannot fire over `Nat`.) -/
def StringCache.retireIfNeeded (c : StringCache) (alloc_size : Nat) : StringCache :=
  if alloc_size + c.alloc.allocated > c.alloc.capacity then
    let new_capacity := max (c.alloc.capacity * 2) alloc_size
    { c with
      alloc := LeakyBumpAlloc.new new_capacity alignOfEntry 0
      old_allocs := c.old_allocs ++ [c.alloc]
      total_allocated := c.total_allocated + new_capacity }
  else c

/-- The tail of `insert` (src/stringcache.rs lines 232-237), entered
with `num_entries` already bumped: grow when the 0.5 load factor is
exceeded, then return the new entry's character pointer. -/
def StringCache.finishInsert (c2 : StringCache) (p : Nat) : Option (Nat × StringCache) :=
  if c2.num_entries * 2 > c2.mask then
    c2.grow.map fun c3 => (p, c3)
  else
    some (p, c2)

/-- `StringCache::insert` (src/stringcache.rs lines 124-241): probe; on
a match return the existing pointer unchanged; on the first null slot,
retire the current arena if the new allocation would spill over
(lines 178-200), allocate, write the entry (header, characters,
trailing NUL — lines 207-230), store the pointer in the slot, bump
`num_entries`, and grow if the load factor exceeds 0.5. -/
def StringCache.insert (c : StringCache) (s : Bytes) (hash : Nat) :
    Option (Nat × StringCache) :=
  match probeLoop c.entries c.store s hash c.mask (c.mask + 2) (c.mask &&& hash) 0 with
  | none => none
  | some (.found p) => some (p, c)
  | some (.slotFree pos) =>
    let byte_len := s.length + 1
    let alloc_size := sizeOfEntryHeader + byte_len
    let c1 := c.retireIfNeeded alloc_size
    match c1.alloc.allocate alloc_size with
    | none => none
    | some (_, a) =>
      let p := c1.store.length
      let e : StringCacheEntry := { hash := hash, len := s.length, chars := s }
      let c2 : StringCache :=
        { c1 with
          alloc := { a with content := p :: a.content }
          store := c1.store ++ [e]
          entries := c1.entries.set pos (some p)
          num_entries := c1.num_entries + 1 }
      c2.finishInsert p

/-- `write_bytes(self.entries.as_mut_ptr(), 0, self.mask + 1)`
(src/stringcache.rs line 290): null out the first `mask + 1` slots of
the table. -/
def zeroSlots (n : Nat) (l : List (Option Nat)) : List (Option Nat) :=
  List.replicate (min n l.length) none ++ l.drop n

/-- `StringCache::clear` (src/stringcache.rs lines 288-302), the
test-only reset: zero the slot pointers, reset the counters, drop the
retired arenas, install a fresh initial arena. -/
def StringCache.clear (c : StringCache) : StringCache :=
  { c with
    entries := zeroSlots (c.mask + 1) c.entries
    num_entries := 0
    total_allocated := 0
    old_allocs := []
    alloc := LeakyBumpAlloc.new (INITIAL_ALLOC / NUM_BINS) alignOfEntry 0 }

/-- `StringCache::total_allocated` the method (src/stringcache.rs
lines 304-307): bytes in use across the current and retired arenas. -/
def StringCache.totalAllocated (c : StringCache) : Nat :=
  c.alloc.allocated + (c.old_allocs.map LeakyBumpAlloc.allocated).sum

/-- `StringCache::total_capacity` (src/stringcache.rs lines 309-312). -/
def StringCache.totalCapacity (c : StringCache) : Nat :=
  c.alloc.capacity + (c.old_allocs.map LeakyBumpAlloc.capacity).sum

/-- `StringCache::num_entries` (src/stringcache.rs lines 314-316). -/
def StringCache.numEntries (c : StringCache) : Nat := c.num_entries

/-! ## The shard array and public surface (src/lib.rs) -/

/-- `whichbin` (src/lib.rs lines 918-921): route a hash to a shard by
its top `BIN_SHIFT` bits. -/
def whichbin (hash : Nat) : Nat := (hash >>> TOP_SHIFT) % NUM_BINS

/-- The process-wide state: the `STRING_CACHE` array of `NUM_BINS`
shards. -/
structure Process where
  bins : List StringCache

/-- The freshly initialized `STRING_CACHE`: `NUM_BINS` default
shards. -/
def initProcess : Process :=
  { bins := List.replicate NUM_BINS StringCache.new }

/-- A `Ustr` handle: the character pointer, modelled as (shard index,
store index within that shard). -/
abbrev Ptr := Nat × Nat

/-- `ustr` / `Ustr::from` (src/lib.rs lines 214-230 and 489-491): hash
the bytes, route to a shard, insert there. -/
def ustr (H : Bytes → Nat) (s : Bytes) (P : Process) : Option (Ptr × Process) :=
  let hash := H s
  let i := whichbin hash
  match P.bins[i]? with
  | none => none
  | some sc =>
    match sc.insert s hash with
    | none => none
    | some (p, sc') => some ((i, p), { bins := P.bins.set i sc' })

/-- `existing_ustr` / `Ustr::from_existing` (src/lib.rs lines 232-245
and 506-508): hash, route, probe; takes the shard by `&self` and
returns without touching the state. -/
def existing_ustr (H : Bytes → Nat) (s : Bytes) (P : Process) : Option (Option Ptr) :=
  let hash := H s
  let i := whichbin hash
  match P.bins[i]? with
  | none => none
  | some sc =>
    match sc.get_existing s hash with
    | none => none
    | some r => some (r.map fun p => (i, p))

/-- Dereference a handle: the `StringCacheEntry` its character pointer
points into. -/
def derefEntry (P : Process) (ptr : Ptr) : Option StringCacheEntry :=
  P.bins[ptr.1]? >>= fun sc => sc.store[ptr.2]?

namespace Ustr

/-- `Ustr::as_str` (src/lib.rs lines 256-271): read the `usize` length
stored one word before the character pointer, then take that many bytes
from the character pointer. -/
def as_str (P : Process) (ptr : Ptr) : Option Bytes :=
  (derefEntry P ptr).map fun e => e.readChars e.len

/-- `Ustr::len` (src/lib.rs lines 330-332): the `len` header field. -/
def len (P : Process) (ptr : Ptr) : Option Nat :=
  (derefEntry P ptr).map fun e => e.len

/-- `Ustr::precomputed_hash` (src/lib.rs lines 340-342): the `hash`
header field. -/
def precomputed_hash (P : Process) (ptr : Ptr) : Option Nat :=
  (derefEntry P ptr).map fun e => e.hash

/-- The byte at `c_str() + i` (the character pointer plus `i`). -/
def charByteAt (P : Process) (ptr : Ptr) (i : Nat) : Option Nat :=
  (derefEntry P ptr) >>= fun e => e.charByte i

end Ustr

/-! ## The global iterator (src/lib.rs lines 572-595 and
src/stringcache.rs lines 340-373) -/

/-- The snapshot of one arena's handed-out range `[ptr, end)`, parsed
into its sequence of entries: the ghost `content` resolved through the
shard's store.  `none` models a dangling pointer. -/
def resolveArena (store : List StringCacheEntry) (a : LeakyBumpAlloc) :
    Option (List StringCacheEntry) :=
  a.content.mapM fun p => store[p]?

/-- `StringCacheIterator` (src/stringcache.rs lines 329-333): the
snapshot of `(ptr, end)` ranges — here each range already parsed into
its entry sequence — a current-range index and a cursor inside it. -/
structure StringCacheIterator where
  allocs : List (List StringCacheEntry)
  current_alloc : Nat
  current_ptr : Nat

/-- The entry-parsing tail of `StringCacheIterator::next`
(src/stringcache.rs lines 359-371): interpret the cursor as an entry,
yield its byte slice, advance the cursor past the entry.  `none` models
reading past the handed-out range. -/
def iterParse (it : StringCacheIterator) (ca idx : Nat) :
    Option (Option (Bytes × StringCacheIterator)) :=
  match it.allocs[ca]? with
  | none => none
  | some cur =>
    match cur[idx]? with
    | none => none
    | some e =>
      some (some (e.readChars e.len, { it with current_alloc := ca, current_ptr := idx + 1 }))

/-- `StringCacheIterator::next` (src/stringcache.rs lines 342-372): if
the cursor reached the end of the current range, either finish (last
range) or advance to the next range and fall straight through — with no
fresh bounds check — to parsing an entry. -/
def iterNext (it : StringCacheIterator) : Option (Option (Bytes × StringCacheIterator)) :=
  match it.allocs[it.current_alloc]? with
  | none => none
  | some cur =>
    if cur.length ≤ it.current_ptr then
      if it.current_alloc = it.allocs.length - 1 then some none
      else iterParse it (it.current_alloc + 1) 0
    else iterParse it it.current_alloc it.current_ptr

/-- The per-shard body of `string_cache_iter`'s collection loop
(src/lib.rs lines 574-587): the ranges of the retired arenas, then the
current arena when it is non-empty (`ptr != end`), each parsed through
the shard's store. -/
def collectBin (sc : StringCache) : List (Option (List StringCacheEntry)) :=
  sc.old_allocs.map (resolveArena sc.store) ++
    (if sc.alloc.ptr ≠ sc.alloc.endAddr then [resolveArena sc.store sc.alloc] else [])

/-- `string_cache_iter` (src/lib.rs lines 572-595): collect the ranges
of every shard, then start the cursor at `allocs[0]` — an indexing that
panics (modelled `none`) when no range was collected. -/
def stringCacheIter (P : Process) : Option StringCacheIterator :=
  match (P.bins.map collectBin).flatten.mapM id with
  | none => none
  | some allocs =>
    match allocs[0]? with
    | none => none
    | some _ => some { allocs := allocs, current_alloc := 0, current_ptr := 0 }

/-- Repeatedly call `next` until it yields `None`, collecting the
yielded strings.  Fuel bounds the number of `next` calls. -/
def iterDrain (fuel : Nat) (it : StringCacheIterator) (acc : List Bytes) :
    Option (List Bytes) :=
  match fuel with
  | 0 => none
  | fuel + 1 =>
    match iterNext it with
    | none => none
    | some none => some acc.reverse
    | some (some (s, it')) => iterDrain fuel it' (s :: acc)

/-- Fuel sufficient to drain an iterator: one `next` call per entry,
one per range advance, one final `None`. -/
def iterFuel (it : StringCacheIterator) : Nat :=
  (it.allocs.map List.length).sum + it.allocs.length + 1

/-- Build the iterator and drain it completely. -/
def drainIter (P : Process) : Option (List Bytes) :=
  (stringCacheIter P).bind fun it => iterDrain (iterFuel it) it []

/-- The entries an iterator over ranges `L` positioned at range `ca`,
offset `idx` has yet to yield: the rest of the current range and all
later ranges. -/
def remEntries (L : List (List StringCacheEntry)) (ca idx : Nat) :
    List StringCacheEntry :=
  match L[ca]? with
  | none => []
  | some cur => cur.drop idx ++ (L.drop (ca + 1)).flatten

/-- No shard has retired an arena while it was still empty.  (A string
of `INITIAL_ALLOC / NUM_BINS - 17` bytes or more can violate this; the
iterator then mis-parses, see the C5 analysis.) -/
def NoEmptyRetired (P : Process) : Prop :=
  ∀ sc ∈ P.bins, ∀ a ∈ sc.old_allocs, a.content ≠ []

/-! ## Operation sequences on the process state -/

/-- The cache operations a program can run between producing a handle
and reading it back (the test-only `clear` deliberately excluded, as in
the specification's stability clause). -/
inductive CacheOp where
  | intern (s : Bytes)
  | lookup (s : Bytes)
  | growBin (i : Nat)
  | iterate

/-- One operation against the process state.  `lookup` takes the shard
by `&self` and `iterate` only reads under the locks, so both leave the
state unchanged; `intern` and `growBin` update one shard. -/
def stepOp (H : Bytes → Nat) : CacheOp → Process → Option Process
  | .intern s, P => (ustr H s P).map (·.2)
  | .lookup s, P => (existing_ustr H s P).map fun _ => P
  | .growBin i, P =>
    match P.bins[i]? with
    | none => none
    | some sc => sc.grow.map fun sc' => { bins := P.bins.set i sc' }
  | .iterate, P => (drainIter P).map fun _ => P

/-- Run a sequence of operations. -/
def runOps (H : Bytes → Nat) : List CacheOp → Process → Option Process
  | [], P => some P
  | op :: rest, P => (stepOp H op P).bind (runOps H rest)

/-! ## The cache invariant -/

/-- Slot `i` of table `tbl` lies on the probe sequence of `hash` with
every earlier probe position occupied: the probe loop reaches `i`
before any null slot. -/
def ReachIn (tbl : List (Option Nat)) (mask hash i : Nat) : Prop :=
  ∃ d, posIter hash mask d = i ∧
    ∀ d' < d, ∃ q, tbl[posIter hash mask d']? = some (some q)

/-- Well-formedness of one shard, relative to the process hash function
`H`.  These are the facts `StringCache::new` establishes and every
shard operation preserves. -/
structure WFCache (H : Bytes → Nat) (c : StringCache) : Prop where
  hmask : 1 ≤ c.mask
  hpow : ∃ k, c.mask + 1 = 2 ^ k
  hlen : c.entries.length = c.mask + 1
  /-- The non-null slots hold exactly one pointer to each allocated
  entry. -/
  hperm : (c.entries.filterMap id).Perm (List.range c.store.length)
  hcount : c.num_entries = c.store.length
  /-- Load factor at most 0.5. -/
  hload : c.num_entries * 2 ≤ c.mask + 1
  /-- Every entry's stored length is the length of its bytes and its
  stored hash is the hash of its bytes. -/
  hint : ∀ e ∈ c.store, e.len = e.chars.length ∧ e.hash = H e.chars
  /-- No two allocated entries hold the same byte sequence. -/
  huniq : ∀ (p₁ p₂ : Nat) (e₁ e₂ : StringCacheEntry),
    c.store[p₁]? = some e₁ → c.store[p₂]? = some e₂ →
    e₁.chars = e₂.chars → p₁ = p₂
  /-- Every slotted entry is reachable by probing from its own hash. -/
  hreach : ∀ i p e, c.entries[i]? = some (some p) → c.store[p]? = some e →
    ReachIn c.entries c.mask e.hash i
  /-- The arenas together hold exactly the allocated entries. -/
  harenaPerm : ((c.old_allocs ++ [c.alloc]).map LeakyBumpAlloc.content).flatten.Perm
    (List.range c.store.length)
  /-- Shard arenas are modelled with base address 0 and entry
  alignment; the cursor stays within the arena and sits at the top
  exactly while the arena is empty. -/
  harenas : ∀ a ∈ c.old_allocs ++ [c.alloc], a.start = 0 ∧ a.align = alignOfEntry ∧
    a.ptr ≤ a.capacity ∧ (a.ptr = a.capacity ↔ a.content = [])
  /-- Arena capacities never drop below the initial per-shard size. -/
  hcap : INITIAL_ALLOC / NUM_BINS ≤ c.alloc.capacity

/-- Well-formedness of the whole process state: the right number of
shards, each well-formed, and every entry lives in the shard its hash
routes to. -/
structure WFProcess (H : Bytes → Nat) (P : Process) : Prop where
  hbins : P.bins.length = NUM_BINS
  hwf : ∀ (i : Nat) (sc : StringCache), P.bins[i]? = some sc → WFCache H sc
  hroute : ∀ (i : Nat) (sc : StringCache), P.bins[i]? = some sc →
    ∀ e ∈ sc.store, whichbin e.hash = i

/-- The canonical entry for `s` in shard `c` sits at abstract pointer
`p`. -/
def Stored (c : StringCache) (s : Bytes) (p : Nat) : Prop :=
  ∃ e, c.store[p]? = some e ∧ e.chars = s

/-- Shard `c` holds an entry for `s`. -/
def StoredAny (c : StringCache) (s : Bytes) : Prop :=
  ∃ p, Stored c s p

/-- The canonical entry for `s` in the whole process sits at handle
`ptr`. -/
def PStored (P : Process) (s : Bytes) (ptr : Ptr) : Prop :=
  ∃ sc, P.bins[ptr.1]? = some sc ∧ Stored sc s ptr.2

/-- Process state `P'` extends `P`: same shard count, and every
shard's entry store in `P'` is an extension of what it was in `P`
(entries are never moved, mutated or destroyed). -/
def Extends (P P' : Process) : Prop :=
  P'.bins.length = P.bins.length ∧
  ∀ (i : Nat) (sc : StringCache), P.bins[i]? = some sc →
    ∃ sc', P'.bins[i]? = some sc' ∧ ∃ t, sc'.store = sc.store ++ t

/-- A trivial concrete hash function used to instantiate the theorems
on concrete runs (any function works; the proofs are parametric in
`H`). -/
def cHash : Bytes → Nat := fun _ => 0

/-! ## Triangular-number arithmetic -/

theorem two_mul_tri (d : Nat) : 2 * tri d = d * (d + 1) := by
  induction d with
  | zero => rfl
  | succ d ih =>
    show 2 * (tri d + (d + 1)) = _
    rw [Nat.mul_add, ih]; ring

/-- Helper for `tri_mod_inj`: the ordered case `j ≤ i`. -/
theorem tri_mod_inj_le {k i j : Nat} (hi : i < 2 ^ k) (hj : j ≤ i)
    (h : tri i % 2 ^ k = tri j % 2 ^ k) : i = j := by
  by_contra hne
  obtain ⟨c, hc⟩ := Nat.ModEq.dvd (show Nat.ModEq (2 ^ k) (tri i) (tri j) from h)
  push_cast at hc
  have h2i : (2 : ℤ) * (tri i : ℤ) = (i : ℤ) * ((i : ℤ) + 1) := by
    exact_mod_cast congrArg (Nat.cast (R := ℤ)) (two_mul_tri i)
  have h2j : (2 : ℤ) * (tri j : ℤ) = (j : ℤ) * ((j : ℤ) + 1) := by
    exact_mod_cast congrArg (Nat.cast (R := ℤ)) (two_mul_tri j)
  have key : ((i : ℤ) - j) * ((i : ℤ) + j + 1) = (2 ^ k * 2) * (-c) := by
    linear_combination (-2 : ℤ) * hc - h2i + h2j
  have hdvdZ : ((2 : ℤ) ^ (k + 1)) ∣ ((i : ℤ) - j) * ((i : ℤ) + j + 1) :=
    ⟨-c, by rw [key, pow_succ]⟩
  have hcast : (((i - j) * (i + j + 1) : ℕ) : ℤ) = ((i : ℤ) - j) * ((i : ℤ) + j + 1) := by
    push_cast [hj]; ring
  have hdvdN : 2 ^ (k + 1) ∣ (i - j) * (i + j + 1) := by
    have := hdvdZ
    rw [← hcast] at this
    exact_mod_cast this
  have h2k : 2 ^ (k + 1) = 2 ^ k * 2 := by rw [pow_succ]
  have hdpos : 0 < i - j := by omega
  rcases Nat.even_or_odd (i - j) with hev | hodd
  · -- i - j even, so i + j + 1 is odd and 2^(k+1) must divide i - j
    have hsodd : Odd (i + j + 1) := by
      rcases hev with ⟨m, hm⟩
      exact ⟨i - m, by omega⟩
    have hcop : Nat.Coprime (2 ^ (k + 1)) (i + j + 1) :=
      Nat.Coprime.pow_left _ (Nat.coprime_two_left.2 hsodd)
    have : 2 ^ (k + 1) ∣ i - j := hcop.dvd_of_dvd_mul_right hdvdN
    have := Nat.le_of_dvd hdpos this
    omega
  · -- i - j odd, so 2^(k+1) must divide i + j + 1
    have hcop : Nat.Coprime (2 ^ (k + 1)) (i - j) :=
      Nat.Coprime.pow_left _ (Nat.coprime_two_left.2 hodd)
    have hdvds : 2 ^ (k + 1) ∣ i + j + 1 := hcop.dvd_of_dvd_mul_left hdvdN
    have := Nat.le_of_dvd (by omega) hdvds
    omega

/-- Triangular numbers are pairwise distinct modulo `2 ^ k` on the
index range `[0, 2 ^ k)`. -/
theorem tri_mod_inj {k i j : Nat} (hi : i < 2 ^ k) (hj : j < 2 ^ k)
    (h : tri i % 2 ^ k = tri j % 2 ^ k) : i = j := by
  rcases Nat.le_total j i with hle | hle
  · exact tri_mod_inj_le hi hle h
  · exact (tri_mod_inj_le hj hle h.symm).symm

/-! ## The probe sequence: closed form, injectivity, coverage -/

/-- For a power-of-two table, masking with `mask` is reduction modulo
the table size. -/
theorem land_mask_eq_mod {mask : Nat} (hpow : ∃ k, mask + 1 = 2 ^ k) (x : Nat) :
    x &&& mask = x % (mask + 1) := by
  obtain ⟨k, hk⟩ := hpow
  have : mask = 2 ^ k - 1 := by omega
  rw [this, Nat.and_pow_two_sub_one_eq_mod]
  congr 1
  omega

theorem posIter_closed {hash mask : Nat} (hpow : ∃ k, mask + 1 = 2 ^ k) :
    ∀ d, posIter hash mask d = (hash + tri d) % (mask + 1) := by
  intro d
  induction d with
  | zero =>
    show mask &&& hash = _
    rw [Nat.land_comm, land_mask_eq_mod hpow]
    rfl
  | succ d ih =>
    show (posIter hash mask d + (d + 1)) &&& mask = _
    rw [ih, land_mask_eq_mod hpow, Nat.mod_add_mod]
    congr 1
    show hash + tri d + (d + 1) = hash + (tri d + (d + 1))
    omega

theorem posIter_lt {hash mask : Nat} (hpow : ∃ k, mask + 1 = 2 ^ k) (d : Nat) :
    posIter hash mask d < mask + 1 := by
  rw [posIter_closed hpow]
  exact Nat.mod_lt _ (Nat.succ_pos mask)

/-- Within the first `mask + 1` steps the probe sequence never repeats
a slot. -/
theorem posIter_inj {hash mask : Nat} (hpow : ∃ k, mask + 1 = 2 ^ k)
    {i j : Nat} (hi : i < mask + 1) (hj : j < mask + 1)
    (h : posIter hash mask i = posIter hash mask j) : i = j := by
  obtain ⟨k, hk⟩ := hpow
  rw [posIter_closed ⟨k, hk⟩, posIter_closed ⟨k, hk⟩] at h
  have h' : tri i % (mask + 1) = tri j % (mask + 1) :=
    Nat.ModEq.add_left_cancel' hash h
  rw [hk] at h' hi hj
  exact tri_mod_inj hi hj h'

/-- Within the first `mask + 1` steps the probe sequence visits every
slot. -/
theorem posIter_surj (hash : Nat) {mask : Nat} (hpow : ∃ k, mask + 1 = 2 ^ k)
    {t : Nat} (ht : t < mask + 1) : ∃ d < mask + 1, posIter hash mask d = t := by
  let f : Fin (mask + 1) → Fin (mask + 1) :=
    fun d => ⟨posIter hash mask d.1, posIter_lt hpow d.1⟩
  have hinj : Function.Injective f := by
    intro a b hab
    exact Fin.ext (posIter_inj hpow a.2 b.2 (congrArg Fin.val hab))
  have hsurj : Function.Surjective f := Finite.surjective_of_injective hinj
  obtain ⟨d, hd⟩ := hsurj ⟨t, ht⟩
  exact ⟨d.1, d.2, congrArg Fin.val hd⟩

/-! ## Generic list helpers -/

theorem mem_filterMap_id {α : Type} {l : List (Option α)} {p : α} :
    p ∈ l.filterMap id ↔ some p ∈ l := by
  simp [List.mem_filterMap]

theorem exists_index_of_mem {α : Type} {l : List α} {a : α} (h : a ∈ l) :
    ∃ i : Nat, l[i]? = some a := by
  rw [List.mem_iff_getElem] at h
  obtain ⟨i, hi, h⟩ := h
  exact ⟨i, by rw [List.getElem?_eq_getElem hi, h]⟩

theorem exists_none_of_filterMap_lt {α : Type} (l : List (Option α))
    (h : (l.filterMap id).length < l.length) : ∃ i : Nat, l[i]? = some none := by
  induction l with
  | nil => simp at h
  | cons a t ih =>
    match a with
    | none => exact ⟨0, by simp⟩
    | some x =>
      simp only [List.filterMap_cons_some, List.length_cons, id] at h
      obtain ⟨i, hi⟩ := ih (by simpa using Nat.lt_of_succ_lt_succ h)
      exact ⟨i + 1, by simpa using hi⟩

/-! ## Facts derived from the shard invariant -/

theorem WFCache.ptr_lt {H : Bytes → Nat} {c : StringCache} (hwf : WFCache H c)
    {i p : Nat} (h : c.entries[i]? = some (some p)) : p < c.store.length := by
  have hmem : p ∈ c.entries.filterMap id := mem_filterMap_id.2 (List.getElem?_mem h)
  simpa using hwf.hperm.mem_iff.1 hmem

theorem WFCache.slotted {H : Bytes → Nat} {c : StringCache} (hwf : WFCache H c)
    {p : Nat} (hp : p < c.store.length) : ∃ i : Nat, c.entries[i]? = some (some p) := by
  have hmem : p ∈ c.entries.filterMap id :=
    hwf.hperm.mem_iff.2 (by simpa using hp)
  exact exists_index_of_mem (mem_filterMap_id.1 hmem)

theorem WFCache.stored_unique {H : Bytes → Nat} {c : StringCache} (hwf : WFCache H c)
    {s : Bytes} {p q : Nat} (hp : Stored c s p) (hq : Stored c s q) : p = q := by
  obtain ⟨e₁, he₁, hc₁⟩ := hp
  obtain ⟨e₂, he₂, hc₂⟩ := hq
  exact hwf.huniq p q e₁ e₂ he₁ he₂ (hc₁.trans hc₂.symm)

/-- A stored entry whose bytes are `s` satisfies the probe loop's
candidate test against query `s` with hash `H s`. -/
theorem WFCache.matches_of_stored {H : Bytes → Nat} {c : StringCache}
    (hwf : WFCache H c) {s : Bytes} {p : Nat} {e : StringCacheEntry}
    (he : c.store[p]? = some e) (hchars : e.chars = s) : entryMatches e s (H s) := by
  obtain ⟨hlen, hhash⟩ := hwf.hint e (List.getElem?_mem he)
  refine ⟨by rw [hhash, hchars], by rw [hlen, hchars], ?_⟩
  show (e.chars ++ [0]).take e.len = s
  rw [hlen, List.take_left, hchars]

/-- Conversely, an entry passing the candidate test holds exactly the
query bytes. -/
theorem WFCache.chars_of_matches {H : Bytes → Nat} {c : StringCache}
    (hwf : WFCache H c) {s : Bytes} {hash p : Nat} {e : StringCacheEntry}
    (he : c.store[p]? = some e) (hm : entryMatches e s hash) : e.chars = s := by
  obtain ⟨hlen, _⟩ := hwf.hint e (List.getElem?_mem he)
  obtain ⟨_, _, hread⟩ := hm
  rw [show e.readChars e.len = e.chars by
    show (e.chars ++ [0]).take e.len = e.chars
    rw [hlen, List.take_left]] at hread
  exact hread

/-! ## Running the probe loop -/

/-- If every step from `j` up to (excluding) `d₀` meets an occupied,
non-matching slot and step `d₀` meets a null slot, the probe loop
started at step `j` stops there and reports that slot free. -/
theorem probeLoop_run_free (entries : List (Option Nat)) (store : List StringCacheEntry)
    (s : Bytes) (hash mask : Nat) (d₀ : Nat)
    (hstop : entries[posIter hash mask d₀]? = some none)
    (fuel j : Nat)
    (hbef : ∀ d, j ≤ d → d < d₀ → ∃ p e, entries[posIter hash mask d]? = some (some p) ∧
      store[p]? = some e ∧ ¬ entryMatches e s hash)
    (hj : j ≤ d₀) (hfuel : d₀ < j + fuel) :
    probeLoop entries store s hash mask fuel (posIter hash mask j) j =
      some (.slotFree (posIter hash mask d₀)) := by
  induction fuel generalizing j with
  | zero => omega
  | succ fuel ih =>
    rcases Nat.eq_or_lt_of_le hj with heq | hlt
    · subst heq
      simp only [probeLoop, hstop]
    · obtain ⟨p, e, hslot, hstore, hnm⟩ := hbef j le_rfl hlt
      simp only [probeLoop, hslot, hstore]
      rw [if_neg hnm]
      exact ih (j + 1) (fun d hd1 hd2 => hbef d (by omega) hd2) hlt (by omega)

/-- If every step from `j` up to (excluding) `d₀` meets an occupied,
non-matching slot and step `d₀` meets a matching entry `p`, the probe
loop started at step `j` finds `p`. -/
theorem probeLoop_run_found (entries : List (Option Nat)) (store : List StringCacheEntry)
    (s : Bytes) (hash mask : Nat) (d₀ p : Nat) (e : StringCacheEntry)
    (hstop : entries[posIter hash mask d₀]? = some (some p))
    (hstore : store[p]? = some e) (hm : entryMatches e s hash)
    (fuel j : Nat)
    (hbef : ∀ d, j ≤ d → d < d₀ → ∃ q f, entries[posIter hash mask d]? = some (some q) ∧
      store[q]? = some f ∧ ¬ entryMatches f s hash)
    (hj : j ≤ d₀) (hfuel : d₀ < j + fuel) :
    probeLoop entries store s hash mask fuel (posIter hash mask j) j =
      some (.found p) := by
  induction fuel generalizing j with
  | zero => omega
  | succ fuel ih =>
    rcases Nat.eq_or_lt_of_le hj with heq | hlt
    · subst heq
      simp only [probeLoop, hstop, hstore]
      rw [if_pos hm]
    · obtain ⟨q, f, hslot, hstore', hnm⟩ := hbef j le_rfl hlt
      simp only [probeLoop, hslot, hstore']
      rw [if_neg hnm]
      exact ih (j + 1) (fun d hd1 hd2 => hbef d (by omega) hd2) hlt (by omega)

/-- In a well-formed shard, probing for a stored string finds its
canonical pointer: the loop cannot hit a null slot first, because every
probe position before the entry's own slot was occupied when the entry
was inserted and slots are never vacated. -/
theorem probe_found {H : Bytes → Nat} {c : StringCache} (hwf : WFCache H c)
    {s : Bytes} {p : Nat} (hst : Stored c s p) :
    probeLoop c.entries c.store s (H s) c.mask (c.mask + 2) (c.mask &&& H s) 0 =
      some (.found p) := by
  classical
  set hash := H s with hhash
  set mask := c.mask with hmask
  have hpow := hwf.hpow
  set P : Nat → Prop := fun d =>
    c.entries[posIter hash mask d]? = some none ∨
      ∃ q f, c.entries[posIter hash mask d]? = some (some q) ∧
        c.store[q]? = some f ∧ entryMatches f s hash with hPdef
  -- every non-stopping step meets an occupied, non-matching slot
  have hnonstop : ∀ d, ¬ P d → ∃ q f,
      c.entries[posIter hash mask d]? = some (some q) ∧
        c.store[q]? = some f ∧ ¬ entryMatches f s hash := by
    intro d hnp
    have hposlt : posIter hash mask d < c.entries.length := by
      rw [hwf.hlen]; exact posIter_lt hpow d
    have hv : c.entries[posIter hash mask d]? =
        some (c.entries.get ⟨posIter hash mask d, hposlt⟩) :=
      List.getElem?_eq_getElem hposlt
    match hvv : c.entries.get ⟨posIter hash mask d, hposlt⟩ with
    | none => exact absurd (Or.inl (by rw [hv, hvv])) hnp
    | some q =>
      rw [hvv] at hv
      have hqlt : q < c.store.length := hwf.ptr_lt hv
      have hf : c.store[q]? = some (c.store.get ⟨q, hqlt⟩) := List.getElem?_eq_getElem hqlt
      by_cases hm : entryMatches (c.store.get ⟨q, hqlt⟩) s hash
      · exact absurd (Or.inr ⟨q, _, hv, hf, hm⟩) hnp
      · exact ⟨q, _, hv, hf, hm⟩
  -- the stored entry gives a stopping step
  obtain ⟨e, he, hchars⟩ := hst
  have hplt : p < c.store.length := (List.getElem?_eq_some.mp he).1
  obtain ⟨i, hi⟩ := hwf.slotted hplt
  have hilt : i < mask + 1 := by
    have := (List.getElem?_eq_some.mp hi).1
    rwa [hwf.hlen] at this
  have hehash : e.hash = hash := by
    obtain ⟨_, hh⟩ := hwf.hint e (List.getElem?_mem he)
    rw [hh, hchars]
  obtain ⟨dw, hdwlt, hdw⟩ := posIter_surj hash hpow hilt
  have hex : ∃ d, P d := by
    refine ⟨dw, Or.inr ⟨p, e, ?_, he, hwf.matches_of_stored he hchars⟩⟩
    rw [hdw]; exact hi
  set d₀ := Nat.find hex with hd₀def
  have hP₀ : P d₀ := Nat.find_spec hex
  have hmin : ∀ d, d < d₀ → ¬ P d := fun d hd => Nat.find_min hex hd
  have hd₀lt : d₀ < mask + 1 := lt_of_le_of_lt (Nat.find_min' hex (by
    refine Or.inr ⟨p, e, ?_, he, hwf.matches_of_stored he hchars⟩
    rw [hdw]; exact hi)) hdwlt
  -- the stop cannot be a null slot: the entry's reach witness blocks it
  rcases hP₀ with hnull | ⟨q, f, hslot, hstore, hm⟩
  · exfalso
    obtain ⟨dr, hdrpos, hdrbef⟩ := hwf.hreach i p e hi he
    rw [hehash] at hdrpos hdrbef
    have hPdr : P dr := Or.inr ⟨p, e, by rw [hdrpos]; exact hi, he,
      hwf.matches_of_stored he hchars⟩
    have hle : d₀ ≤ dr := Nat.find_min' hex hPdr
    rcases Nat.eq_or_lt_of_le hle with heq | hltr
    · rw [heq, hdrpos] at hnull
      rw [hi] at hnull
      exact Option.noConfusion (Option.some.inj hnull)
    · obtain ⟨q, hq⟩ := hdrbef d₀ hltr
      rw [hq] at hnull
      exact Option.noConfusion (Option.some.inj hnull)
  · -- the found entry is the canonical pointer for s
    have hqchars : f.chars = s := hwf.chars_of_matches hstore hm
    have hqp : q = p := hwf.stored_unique ⟨f, hstore, hqchars⟩ ⟨e, he, hchars⟩
    subst hqp
    exact probeLoop_run_found c.entries c.store s hash mask d₀ q f hslot hstore hm
      (mask + 2) 0
      (fun d _ hd => hnonstop d (hmin d hd)) (Nat.zero_le _) (by omega)

/-- In a well-formed shard, probing for a string that is not stored
stops at the first null slot on the probe sequence, every earlier
position being occupied. -/
theorem probe_miss {H : Bytes → Nat} {c : StringCache} (hwf : WFCache H c)
    {s : Bytes} (hns : ¬ StoredAny c s) :
    ∃ d₀, c.entries[posIter (H s) c.mask d₀]? = some none ∧
      (∀ d, d < d₀ → ∃ q, c.entries[posIter (H s) c.mask d]? = some (some q)) ∧
      probeLoop c.entries c.store s (H s) c.mask (c.mask + 2) (c.mask &&& H s) 0 =
        some (.slotFree (posIter (H s) c.mask d₀)) := by
  classical
  set hash := H s with hhash
  set mask := c.mask with hmask
  have hpow := hwf.hpow
  set P : Nat → Prop := fun d =>
    c.entries[posIter hash mask d]? = some none ∨
      ∃ q f, c.entries[posIter hash mask d]? = some (some q) ∧
        c.store[q]? = some f ∧ entryMatches f s hash with hPdef
  have hnonstop : ∀ d, ¬ P d → ∃ q f,
      c.entries[posIter hash mask d]? = some (some q) ∧
        c.store[q]? = some f ∧ ¬ entryMatches f s hash := by
    intro d hnp
    have hposlt : posIter hash mask d < c.entries.length := by
      rw [hwf.hlen]; exact posIter_lt hpow d
    have hv : c.entries[posIter hash mask d]? =
        some (c.entries.get ⟨posIter hash mask d, hposlt⟩) :=
      List.getElem?_eq_getElem hposlt
    match hvv : c.entries.get ⟨posIter hash mask d, hposlt⟩ with
    | none => exact absurd (Or.inl (by rw [hv, hvv])) hnp
    | some q =>
      rw [hvv] at hv
      have hqlt : q < c.store.length := hwf.ptr_lt hv
      have hf : c.store[q]? = some (c.store.get ⟨q, hqlt⟩) := List.getElem?_eq_getElem hqlt
      by_cases hm : entryMatches (c.store.get ⟨q, hqlt⟩) s hash
      · exact absurd (Or.inr ⟨q, _, hv, hf, hm⟩) hnp
      · exact ⟨q, _, hv, hf, hm⟩
  -- some slot is null because the load factor is at most one half
  have hstorelt : c.store.length < mask + 1 := by
    have h1 := hwf.hload
    have h2 := hwf.hcount
    have h3 := hwf.hmask
    omega
  obtain ⟨in_, hin⟩ := exists_none_of_filterMap_lt c.entries (by
    rw [hwf.hperm.length_eq, List.length_range, hwf.hlen]
    exact hstorelt)
  have hinlt : in_ < mask + 1 := by
    have := (List.getElem?_eq_some.mp hin).1
    rwa [hwf.hlen] at this
  obtain ⟨dw, hdwlt, hdw⟩ := posIter_surj hash hpow hinlt
  have hex : ∃ d, P d := ⟨dw, Or.inl (by rw [hdw]; exact hin)⟩
  set d₀ := Nat.find hex with hd₀def
  have hP₀ : P d₀ := Nat.find_spec hex
  have hmin : ∀ d, d < d₀ → ¬ P d := fun d hd => Nat.find_min hex hd
  have hd₀lt : d₀ < mask + 1 :=
    lt_of_le_of_lt (Nat.find_min' hex (Or.inl (by rw [hdw]; exact hin))) hdwlt
  rcases hP₀ with hnull | ⟨q, f, hslot, hstore, hm⟩
  · refine ⟨d₀, hnull, ?_, ?_⟩
    · intro d hd
      obtain ⟨q, f, hq, _, _⟩ := hnonstop d (hmin d hd)
      exact ⟨q, hq⟩
    · exact probeLoop_run_free c.entries c.store s hash mask d₀ hnull (mask + 2) 0
        (fun d _ hd => hnonstop d (hmin d hd)) (Nat.zero_le _) (by omega)
  · exact absurd ⟨q, f, hstore, hwf.chars_of_matches hstore hm⟩ hns

/-! ## The allocator never hits its fatal paths when the shard guards it -/

theorem alignDown_le (x align : Nat) : alignDown x align ≤ x :=
  Nat.sub_le _ _

theorem alignDown_ge_of_dvd {st x align : Nat} (halign : 0 < align)
    (hdvd : align ∣ st) (hle : st ≤ x) : st ≤ alignDown x align := by
  obtain ⟨m, hm⟩ := hdvd
  have h1 : alignDown x align = align * (x / align) := by
    unfold alignDown
    have := Nat.mod_add_div x align
    omega
  have hmx : m ≤ x / align := by
    refine (Nat.le_div_iff_mul_le halign).2 ?_
    rw [Nat.mul_comm, ← hm]
    exact hle
  rw [h1, hm]
  exact Nat.mul_le_mul_left align hmx

/-- The heart of the allocator safety argument: when the caller has
checked `num_bytes + allocated() ≤ capacity()` and the arena base is
aligned, `allocate` takes neither the `checked_sub` panic nor the
`abort` branch. -/
theorem LeakyBumpAlloc.allocate_some {a : LeakyBumpAlloc} {n : Nat}
    (halign : 0 < a.align) (hdvd : a.align ∣ a.start)
    (hlo : a.start ≤ a.ptr) (hhi : a.ptr ≤ a.endAddr)
    (hguard : n + a.allocated ≤ a.capacity) :
    ∃ q, a.allocate n = some (q, { a with ptr := q }) ∧
      a.start ≤ q ∧ q ≤ a.ptr - n := by
  have hend : a.endAddr = a.start + a.capacity := rfl
  have halloc : a.allocated = a.endAddr - a.ptr := rfl
  have hn : n ≤ a.ptr - a.start := by omega
  have hnp : ¬ (a.ptr < n) := by omega
  have hq : a.start ≤ alignDown (a.ptr - n) a.align :=
    alignDown_ge_of_dvd halign hdvd (by omega)
  refine ⟨alignDown (a.ptr - n) a.align, ?_, hq, alignDown_le _ _⟩
  unfold LeakyBumpAlloc.allocate
  rw [if_neg hnp, if_neg (by omega)]

/-! ## The relocation loop of `grow` -/

theorem findEmptySlot_run (tbl : List (Option Nat)) (hash mask d₀ : Nat)
    (hstop : tbl[posIter hash mask d₀]? = some none) :
    ∀ (fuel j : Nat),
    (∀ d, j ≤ d → d < d₀ → ∃ q, tbl[posIter hash mask d]? = some (some q)) →
    j ≤ d₀ → d₀ < j + fuel →
    findEmptySlot tbl mask fuel (posIter hash mask j) j = some (posIter hash mask d₀) := by
  intro fuel
  induction fuel with
  | zero => omega
  | succ fuel ih =>
    intro j hbef hj hfuel
    rcases Nat.eq_or_lt_of_le hj with heq | hlt
    · subst heq
      simp only [findEmptySlot, hstop]
    · obtain ⟨q, hq⟩ := hbef j le_rfl hlt
      simp only [findEmptySlot, hq]
      exact ih (j + 1) (fun d hd1 hd2 => hbef d (by omega) hd2) hlt (by omega)

theorem findEmptySlot_spec (tbl : List (Option Nat)) (hash mask : Nat)
    (hpow : ∃ k, mask + 1 = 2 ^ k) (hlen : tbl.length = mask + 1)
    (hnonfull : (tbl.filterMap id).length < mask + 1) :
    ∃ d₀, d₀ < mask + 1 ∧ tbl[posIter hash mask d₀]? = some none ∧
      (∀ d, d < d₀ → ∃ q, tbl[posIter hash mask d]? = some (some q)) ∧
      findEmptySlot tbl mask (mask + 2) (hash &&& mask) 0 = some (posIter hash mask d₀) := by
  classical
  obtain ⟨i0, hi0⟩ := exists_none_of_filterMap_lt tbl (by omega)
  have hi0lt : i0 < mask + 1 := by
    have := (List.getElem?_eq_some.mp hi0).1
    omega
  obtain ⟨dw, hdwlt, hdw⟩ := posIter_surj hash hpow hi0lt
  have hex : ∃ d, tbl[posIter hash mask d]? = some none := ⟨dw, by rw [hdw]; exact hi0⟩
  set d₀ := Nat.find hex with hd₀def
  have hP₀ := Nat.find_spec hex
  have hd₀lt : d₀ < mask + 1 :=
    lt_of_le_of_lt (Nat.find_min' hex (by rw [hdw]; exact hi0)) hdwlt
  have hbef : ∀ d, d < d₀ → ∃ q, tbl[posIter hash mask d]? = some (some q) := by
    intro d hd
    have hnp := Nat.find_min hex hd
    have hposlt : posIter hash mask d < tbl.length := by
      rw [hlen]; exact posIter_lt hpow d
    have hv : tbl[posIter hash mask d]? = some (tbl.get ⟨posIter hash mask d, hposlt⟩) :=
      List.getElem?_eq_getElem hposlt
    match hvv : tbl.get ⟨posIter hash mask d, hposlt⟩ with
    | none => exact absurd (by rw [hv, hvv]) hnp
    | some q => exact ⟨q, by rw [hv, hvv]⟩
  refine ⟨d₀, hd₀lt, hP₀, hbef, ?_⟩
  have hstart : hash &&& mask = posIter hash mask 0 := Nat.land_comm hash mask
  rw [hstart]
  exact findEmptySlot_run tbl hash mask d₀ hP₀ (mask + 2) 0
    (fun d _ hd => hbef d hd) (Nat.zero_le _) (by omega)

theorem filterMap_id_cons_none {α : Type} (t : List (Option α)) :
    (none :: t).filterMap id = t.filterMap id := rfl

theorem filterMap_id_cons_some {α : Type} (t : List (Option α)) (x : α) :
    (some x :: t).filterMap id = x :: t.filterMap id := rfl

/-- Setting a null slot to `some p` adds exactly `p` to the slot
contents. -/
theorem filterMap_set_none_perm {α : Type} :
    ∀ (l : List (Option α)) (pos : Nat) (p : α), l[pos]? = some none →
    ((l.set pos (some p)).filterMap id).Perm (p :: l.filterMap id) := by
  intro l
  induction l with
  | nil => intro pos p h; simp at h
  | cons a t ih =>
    intro pos p h
    match pos with
    | 0 =>
      have : a = none := by simpa using h
      subst this
      simp
    | pos + 1 =>
      have h' : t[pos]? = some none := by simpa using h
      have := ih pos p h'
      match a with
      | none => simpa using this
      | some x =>
        simp only [List.set_cons_succ, List.filterMap_cons_some, id]
        exact (this.cons x).trans (List.Perm.swap p x _)

/-- Full correctness of the relocation fold: it terminates (the early
exit via `to_copy` included), keeps the table size, moves exactly the
given pointers in, never unsets a slot, and places every moved pointer
at the first free slot along its hash's probe sequence. -/
theorem growLoop_spec (store : List StringCacheEntry) (new_mask : Nat)
    (hpow : ∃ k, new_mask + 1 = 2 ^ k) :
    ∀ (rest acc : List (Option Nat)),
    acc.length = new_mask + 1 →
    (∀ p ∈ rest.filterMap id, p < store.length) →
    (acc.filterMap id).length + (rest.filterMap id).length < new_mask + 1 →
    ∃ final : List (Option Nat),
      growLoop store new_mask rest acc ((rest.filterMap id).length) = some final ∧
      final.length = new_mask + 1 ∧
      (final.filterMap id).Perm (acc.filterMap id ++ rest.filterMap id) ∧
      (∀ (i p : Nat), acc[i]? = some (some p) → final[i]? = some (some p)) ∧
      (∀ (i p : Nat), final[i]? = some (some p) →
        acc[i]? = some (some p) ∨
        ∃ e, store[p]? = some e ∧ ∃ d, posIter e.hash new_mask d = i ∧
          ∀ d', d' < d → ∃ q, final[posIter e.hash new_mask d']? = some (some q)) := by
  intro rest
  induction rest with
  | nil =>
    intro acc hlen _ _
    refine ⟨acc, rfl, hlen, by simp, fun (i p : Nat) h => h, fun (i p : Nat) h => Or.inl h⟩
  | cons a rest ih =>
    intro acc hlen hvalid hsum
    match a with
    | none =>
      rw [filterMap_id_cons_none] at hvalid hsum ⊢
      obtain ⟨final, hrun, h1, h2, h3, h4⟩ := ih acc hlen hvalid hsum
      exact ⟨final, hrun, h1, h2, h3, h4⟩
    | some p =>
      rw [filterMap_id_cons_some] at hvalid hsum ⊢
      simp only [List.length_cons] at hsum ⊢
      have hp : p < store.length := hvalid p (by simp)
      have hvalid' : ∀ q ∈ rest.filterMap id, q < store.length :=
        fun q hq => hvalid q (by simp [hq])
      have he : store[p]? = some (store.get ⟨p, hp⟩) := List.getElem?_eq_getElem hp
      set e := store.get ⟨p, hp⟩ with hedef
      obtain ⟨d₀, hd₀lt, hnull, hbef, hfind⟩ := findEmptySlot_spec acc e.hash new_mask
        hpow hlen (by omega)
      set pos := posIter e.hash new_mask d₀ with hposdef
      have hposlt : pos < acc.length := by rw [hlen]; exact posIter_lt hpow d₀
      set acc' := acc.set pos (some p) with hacc'def
      have hacc'perm : (acc'.filterMap id).Perm (p :: acc.filterMap id) :=
        filterMap_set_none_perm acc pos p hnull
      have hacc'len : acc'.length = new_mask + 1 := by
        rw [ hacc'def, List.length_set, hlen]
      have hpers0 : ∀ (i q : Nat), acc[i]? = some (some q) → acc'[i]? = some (some q) := by
        intro i q hq
        have hne : pos ≠ i := by
          intro hcontra
          rw [hcontra] at hnull
          rw [hq] at hnull
          exact Option.noConfusion (Option.some.inj hnull)
        rw [ hacc'def, List.getElem?_set_ne hne]
        exact hq
      have hat : acc'[pos]? = some (some p) := by
        rw [ hacc'def, List.getElem?_set_self hposlt]
      -- the loop body reduces to the early-exit test on the remaining count
      have hstep : growLoop store new_mask (some p :: rest) acc
          ((rest.filterMap id).length + 1) =
          if (rest.filterMap id).length = 0 then some acc'
          else growLoop store new_mask rest acc' ((rest.filterMap id).length) := by
        simp only [growLoop, he, hfind, Nat.add_sub_cancel, hacc'def]
      by_cases hzero : (rest.filterMap id).length = 0
      · -- early exit: the rest holds no more pointers
        have hrest : rest.filterMap id = [] := List.length_eq_zero.mp hzero
        rw [hstep, if_pos hzero]
        refine ⟨acc', rfl, hacc'len, ?_, hpers0, ?_⟩
        · rw [hrest]
          exact hacc'perm.trans (List.perm_append_singleton p _).symm
        · intro i q hq
          by_cases hiq : i = pos
          · subst hiq
            have : q = p := by
              rw [hat] at hq
              exact (Option.some.inj (Option.some.inj hq)).symm
            subst this
            refine Or.inr ⟨e, he, d₀, hposdef.symm, ?_⟩
            intro d' hd'
            obtain ⟨q', hq'⟩ := hbef d' hd'
            exact ⟨q', hpers0 _ _ hq'⟩
          · rw [ hacc'def, List.getElem?_set_ne (fun hcontra => hiq hcontra.symm)] at hq
            exact Or.inl hq
      · -- keep folding over the remaining slots
        rw [hstep, if_neg hzero]
        obtain ⟨final, hrun, h1, h2, h3, h4⟩ := ih acc' hacc'len hvalid' (by
          have := hacc'perm.length_eq
          simp only [List.length_cons] at this
          omega)
        refine ⟨final, hrun, h1, ?_, ?_, ?_⟩
        · refine h2.trans ((hacc'perm.append_right _).trans ?_)
          exact List.perm_middle.symm
        · intro i q hq
          exact h3 i q (hpers0 i q hq)
        · intro i q hq
          rcases h4 i q hq with hacc' | hreach
          · by_cases hiq : i = pos
            · subst hiq
              have : q = p := by
                rw [hat] at hacc'
                exact (Option.some.inj (Option.some.inj hacc')).symm
              subst this
              refine Or.inr ⟨e, he, d₀, hposdef.symm, ?_⟩
              intro d' hd'
              obtain ⟨q', hq'⟩ := hbef d' hd'
              exact ⟨q', h3 _ _ (hpers0 _ _ hq')⟩
            · rw [ hacc'def, List.getElem?_set_ne (fun hcontra => hiq hcontra.symm)] at hacc'
              exact Or.inl hacc'
          · exact Or.inr hreach

/-- Correctness of `StringCache::grow`: it succeeds, doubles the table
(`new_mask = mask * 2 + 1`), relocates exactly the existing pointers,
re-establishes probe reachability in the new table, and leaves the
entries, counters and arenas untouched. -/
theorem grow_spec {c : StringCache}
    (hpow : ∃ k, c.mask + 1 = 2 ^ k)
    (hvalid : ∀ p ∈ c.entries.filterMap id, p < c.store.length)
    (hcnt : c.num_entries = (c.entries.filterMap id).length)
    (hlt : (c.entries.filterMap id).length < c.mask * 2 + 2) :
    ∃ c', c.grow = some c' ∧
      c'.mask = c.mask * 2 + 1 ∧
      c'.store = c.store ∧ c'.num_entries = c.num_entries ∧
      c'.alloc = c.alloc ∧ c'.old_allocs = c.old_allocs ∧
      c'.total_allocated = c.total_allocated ∧
      c'.entries.length = c.mask * 2 + 2 ∧
      (c'.entries.filterMap id).Perm (c.entries.filterMap id) ∧
      (∀ (i p : Nat) (e : StringCacheEntry), c'.entries[i]? = some (some p) →
        c.store[p]? = some e → ReachIn c'.entries c'.mask e.hash i) := by
  obtain ⟨k, hk⟩ := hpow
  have hpow' : ∃ k', (c.mask * 2 + 1) + 1 = 2 ^ k' :=
    ⟨k + 1, by rw [pow_succ]; omega⟩
  have hrepl : (List.replicate (c.mask * 2 + 1 + 1) (none : Option Nat)).length
      = (c.mask * 2 + 1) + 1 := List.length_replicate _ _
  obtain ⟨final, hrun, hflen, hfperm, _, horigin⟩ :=
    growLoop_spec c.store (c.mask * 2 + 1) hpow' c.entries
      (List.replicate (c.mask * 2 + 1 + 1) none) hrepl hvalid
      (by simp [hlt])
  refine ⟨{ c with entries := final, mask := c.mask * 2 + 1 }, ?_, rfl, rfl, rfl, rfl,
    rfl, rfl, by simpa using hflen, by simpa using hfperm, ?_⟩
  · show (growLoop c.store (c.mask * 2 + 1) c.entries
      (List.replicate (c.mask * 2 + 1 + 1) none) c.num_entries).map _ = _
    rw [hcnt, hrun]
    rfl
  · intro i p e hslot hstore
    rcases horigin i p hslot with hleft | ⟨e', he', d, hd, hbef⟩
    · exfalso
      rcases Nat.lt_or_ge i (c.mask * 2 + 1 + 1) with hilt | hige
      · rw [List.getElem?_replicate, if_pos hilt] at hleft
        exact Option.noConfusion (Option.some.inj hleft)
      · rw [List.getElem?_replicate, if_neg (by omega)] at hleft
        exact Option.noConfusion hleft
    · have : e' = e := by
        rw [hstore] at he'
        exact (Option.some.inj he').symm
      subst this
      exact ⟨d, hd, fun d' hd' => hbef d' hd'⟩

/-- What the retirement block guarantees: the table fields are
untouched, afterwards the requested size fits the current arena
(`alloc_size + allocated ≤ capacity`), the arena bookkeeping invariants
survive, and the set of arena-resident entries is unchanged. -/
theorem retireIfNeeded_spec {H : Bytes → Nat} {c : StringCache} (hwf : WFCache H c)
    (n : Nat) :
    (c.retireIfNeeded n).entries = c.entries ∧
    (c.retireIfNeeded n).store = c.store ∧
    (c.retireIfNeeded n).mask = c.mask ∧
    (c.retireIfNeeded n).num_entries = c.num_entries ∧
    n + (c.retireIfNeeded n).alloc.allocated ≤ (c.retireIfNeeded n).alloc.capacity ∧
    (∀ a ∈ (c.retireIfNeeded n).old_allocs ++ [(c.retireIfNeeded n).alloc],
      a.start = 0 ∧ a.align = alignOfEntry ∧ a.ptr ≤ a.capacity ∧
      (a.ptr = a.capacity ↔ a.content = [])) ∧
    INITIAL_ALLOC / NUM_BINS ≤ (c.retireIfNeeded n).alloc.capacity ∧
    ((((c.retireIfNeeded n).old_allocs ++ [(c.retireIfNeeded n).alloc]).map
      LeakyBumpAlloc.content).flatten).Perm (List.range c.store.length) ∧
    ((c.retireIfNeeded n).old_allocs = c.old_allocs ∨
      ((c.retireIfNeeded n).old_allocs = c.old_allocs ++ [c.alloc] ∧
        c.alloc.capacity < n + c.alloc.allocated)) := by
  unfold StringCache.retireIfNeeded
  by_cases hcond : n + c.alloc.allocated > c.alloc.capacity
  · rw [if_pos hcond]
    have hnewA : (LeakyBumpAlloc.new (max (c.alloc.capacity * 2) n) alignOfEntry 0).allocated = 0 := by
      simp [LeakyBumpAlloc.new, LeakyBumpAlloc.allocated, LeakyBumpAlloc.endAddr]
    refine ⟨rfl, rfl, rfl, rfl, ?_, ?_, ?_, ?_, Or.inr ⟨rfl, hcond⟩⟩
    · rw [hnewA]
      unfold LeakyBumpAlloc.new
      simp [Nat.le_max_right]
    · intro a ha
      simp only [List.mem_append, List.mem_singleton] at ha
      rcases ha with (ha | ha) | ha
      · exact hwf.harenas a (by simp [ha])
      · subst ha; exact hwf.harenas c.alloc (by simp)
      · subst ha
        unfold LeakyBumpAlloc.new
        simp
    · show INITIAL_ALLOC / NUM_BINS ≤ max (c.alloc.capacity * 2) n
      have := hwf.hcap
      have h2 : c.alloc.capacity ≤ max (c.alloc.capacity * 2) n := by
        have := Nat.le_max_left (c.alloc.capacity * 2) n
        omega
      omega
    · show ((((c.old_allocs ++ [c.alloc]) ++
        [LeakyBumpAlloc.new (max (c.alloc.capacity * 2) n) alignOfEntry 0]).map
        LeakyBumpAlloc.content).flatten).Perm (List.range c.store.length)
      have hempty : (LeakyBumpAlloc.new (max (c.alloc.capacity * 2) n) alignOfEntry 0).content = [] := rfl
      rw [List.map_append, List.flatten_append]
      simp only [List.map_cons, List.map_nil, hempty, List.flatten_cons, List.flatten_nil,
        List.append_nil]
      exact hwf.harenaPerm
  · rw [if_neg hcond]
    exact ⟨rfl, rfl, rfl, rfl, by omega, hwf.harenas, hwf.hcap, hwf.harenaPerm, Or.inl rfl⟩

theorem getElem?_append_singleton {α : Type} (l : List α) (x : α) (i : Nat) :
    (l ++ [x])[i]? = if i < l.length then l[i]?
      else if i = l.length then some x else none := by
  rcases Nat.lt_trichotomy i l.length with h | h | h
  · rw [List.getElem?_append_left h, if_pos h]
  · subst h
    simp
  · rw [if_neg (by omega), if_neg (by omega)]
    rw [List.getElem?_append_right (by omega)]
    have : i - l.length ≥ 1 := by omega
    match hdiff : i - l.length, this with
    | n + 1, _ => simp

/-- Full correctness of `StringCache::insert` on a well-formed shard
called with the string's own hash: it succeeds, preserves the
invariant, returns the canonical pointer (the existing one on a hit,
leaving the shard untouched; a fresh one on a miss, appending exactly
one entry), and changes the mask and arena list only in the documented
ways. -/
theorem insert_spec {H : Bytes → Nat} {c : StringCache} (hwf : WFCache H c) (s : Bytes) :
    ∃ p c', c.insert s (H s) = some (p, c') ∧ WFCache H c' ∧
      Stored c' s p ∧
      (∀ q, Stored c s q → p = q ∧ c' = c) ∧
      (¬ StoredAny c s →
        c'.store = c.store ++ [{ hash := H s, len := s.length, chars := s }] ∧
        p = c.store.length) ∧
      (c' = c ∨ c'.store = c.store ++ [{ hash := H s, len := s.length, chars := s }]) ∧
      (c'.mask = c.mask ∨ c'.mask = c.mask * 2 + 1) ∧
      (c'.old_allocs = c.old_allocs ∨
        (c'.old_allocs = c.old_allocs ++ [c.alloc] ∧
          c.alloc.capacity < sizeOfEntryHeader + (s.length + 1) + c.alloc.allocated)) := by
  by_cases hst : StoredAny c s
  · obtain ⟨q, hq⟩ := hst
    have hrun := probe_found hwf hq
    refine ⟨q, c, ?_, hwf, hq, ?_, ?_, Or.inl rfl, Or.inl rfl, Or.inl rfl⟩
    · unfold StringCache.insert
      rw [hrun]
    · exact fun q' hq' => ⟨hwf.stored_unique hq hq', rfl⟩
    · exact fun hns => absurd ⟨q, hq⟩ hns
  · obtain ⟨d₀, hnull, hbef, hrun⟩ := probe_miss hwf hst
    set hash := H s with hhashdef
    set pos := posIter hash c.mask d₀ with hposdef
    set n := sizeOfEntryHeader + (s.length + 1) with hndef
    obtain ⟨hR1, hR2, hR3, hR4, hRguard, hRarenas, hRcap, hRperm, hRold⟩ :=
      retireIfNeeded_spec hwf n
    set c1 := c.retireIfNeeded n with hc1def
    obtain ⟨hA0, hA8, hAle, hAiff⟩ := hRarenas c1.alloc (by simp)
    have halign : 0 < c1.alloc.align := by rw [hA8]; norm_num [alignOfEntry]
    obtain ⟨q_ptr, halloc, hqlo, hqhi⟩ :=
      LeakyBumpAlloc.allocate_some (a := c1.alloc) (n := n) halign
        (by rw [hA0]; exact dvd_zero _)
        (by rw [hA0]; exact Nat.zero_le _)
        (by show c1.alloc.ptr ≤ c1.alloc.endAddr
            unfold LeakyBumpAlloc.endAddr
            omega)
        hRguard
    set newE : StringCacheEntry := { hash := hash, len := s.length, chars := s } with hnewEdef
    set p := c1.store.length with hpdef
    set c2 : StringCache :=
      { c1 with
        alloc := { { c1.alloc with ptr := q_ptr } with content := p :: c1.alloc.content }
        store := c1.store ++ [newE]
        entries := c1.entries.set pos (some p)
        num_entries := c1.num_entries + 1 } with hc2def
    have hins : c.insert s hash = c2.finishInsert p := by
      unfold StringCache.insert
      rw [hrun]
      show (match c1.alloc.allocate n with
        | none => none
        | some (_, a) =>
          StringCache.finishInsert
            { c1 with
              alloc := { a with content := c1.store.length :: a.content }
              store := c1.store ++ [{ hash := hash, len := s.length, chars := s }]
              entries := c1.entries.set pos (some c1.store.length)
              num_entries := c1.num_entries + 1 } c1.store.length
        : Option (Nat × StringCache)) = c2.finishInsert p
      rw [halloc]
    -- facts about the intermediate state c2
    have hplen : p = c.store.length := by rw [hpdef, hR2]
    have hst2 : c2.store = c.store ++ [newE] := by
      show c1.store ++ [newE] = _
      rw [hR2]
    have hent2 : c2.entries = c.entries.set pos (some p) := by
      show c1.entries.set pos (some p) = _
      rw [hR1]
    have hmask2 : c2.mask = c.mask := hR3
    have hnum2 : c2.num_entries = c.num_entries + 1 := by
      show c1.num_entries + 1 = _
      rw [hR4]
    have hposlt : pos < c.entries.length := by
      rw [hwf.hlen]
      exact posIter_lt hwf.hpow d₀
    have hstlen2 : c2.store.length = c.store.length + 1 := by
      rw [hst2, List.length_append, List.length_singleton]
    -- the new entry sits at pointer p
    have hnewAt : c2.store[p]? = some newE := by
      rw [hst2, hplen, getElem?_append_singleton, if_neg (by omega), if_pos rfl]
    have holdAt : ∀ (q : Nat) (e : StringCacheEntry), c.store[q]? = some e →
        c2.store[q]? = some e := by
      intro q e hq
      have : q < c.store.length := (List.getElem?_eq_some.mp hq).1
      rw [hst2, List.getElem?_append_left this]
      exact hq
    have hbackAt : ∀ (q : Nat) (e : StringCacheEntry), c2.store[q]? = some e →
        (q < c.store.length ∧ c.store[q]? = some e) ∨ (q = c.store.length ∧ e = newE) := by
      intro q e hq
      rw [hst2, getElem?_append_singleton] at hq
      by_cases h1 : q < c.store.length
      · rw [if_pos h1] at hq
        exact Or.inl ⟨h1, hq⟩
      · rw [if_neg h1] at hq
        by_cases h2 : q = c.store.length
        · rw [if_pos h2] at hq
          exact Or.inr ⟨h2, (Option.some.inj hq).symm⟩
        · rw [if_neg h2] at hq
          exact Option.noConfusion hq
    -- invariant pieces for c2 (the load factor is settled per branch)
    have hW4 : (c2.entries.filterMap id).Perm (List.range c2.store.length) := by
      rw [hent2, hstlen2]
      refine (filterMap_set_none_perm c.entries pos p hnull).trans ?_
      rw [hplen, List.range_succ]
      exact ((hwf.hperm.cons c.store.length).trans
        (List.perm_append_singleton _ _).symm)
    have hW7 : ∀ e ∈ c2.store, e.len = e.chars.length ∧ e.hash = H e.chars := by
      intro e he
      rw [hst2] at he
      rcases List.mem_append.mp he with he | he
      · exact hwf.hint e he
      · rw [List.mem_singleton] at he
        subst he
        exact ⟨rfl, rfl⟩
    have hW8 : ∀ (p₁ p₂ : Nat) (e₁ e₂ : StringCacheEntry),
        c2.store[p₁]? = some e₁ → c2.store[p₂]? = some e₂ →
        e₁.chars = e₂.chars → p₁ = p₂ := by
      intro p₁ p₂ e₁ e₂ h1 h2 hch
      rcases hbackAt p₁ e₁ h1 with ⟨hlt1, ho1⟩ | ⟨heq1, hee1⟩ <;>
        rcases hbackAt p₂ e₂ h2 with ⟨hlt2, ho2⟩ | ⟨heq2, hee2⟩
      · exact hwf.huniq p₁ p₂ e₁ e₂ ho1 ho2 hch
      · exfalso
        refine hst ⟨p₁, e₁, ho1, ?_⟩
        rw [hch, hee2]
      · exfalso
        refine hst ⟨p₂, e₂, ho2, ?_⟩
        rw [← hch, hee1]
      · rw [heq1, heq2]
    have hpres : ∀ (j q' : Nat), c.entries[j]? = some (some q') →
        (c.entries.set pos (some p))[j]? = some (some q') := by
      intro j q' hj
      have hne : pos ≠ j := by
        intro hcontra
        rw [← hcontra] at hj
        rw [hj] at hnull
        exact Option.noConfusion (Option.some.inj hnull)
      rw [List.getElem?_set_ne hne]
      exact hj
    have hW9 : ∀ (i q : Nat) (e : StringCacheEntry), c2.entries[i]? = some (some q) →
        c2.store[q]? = some e → ReachIn c2.entries c2.mask e.hash i := by
      intro i q e hslot hstore
      rw [hent2] at hslot
      by_cases hip : i = pos
      · subst hip
        rw [List.getElem?_set_self hposlt] at hslot
        have hqp : q = p := by
          have := Option.some.inj (Option.some.inj hslot)
          omega
        subst hqp
        rw [hnewAt] at hstore
        have : e = newE := (Option.some.inj hstore).symm
        subst this
        refine ⟨d₀, ?_, ?_⟩
        · show posIter hash c2.mask d₀ = pos
          rw [hmask2]
        · intro d' hd'
          obtain ⟨q', hq'⟩ := hbef d' hd'
          show ∃ q'', c2.entries[posIter newE.hash c2.mask d']? = some (some q'')
          have hch : posIter newE.hash c2.mask d' = posIter hash c.mask d' := by
            rw [hmask2]
          rw [hch, hent2]
          exact ⟨q', hpres _ _ hq'⟩
      · rw [List.getElem?_set_ne (fun hc' => hip hc'.symm)] at hslot
        have hostore : c.store[q]? = some e := by
          rcases hbackAt q e hstore with ⟨_, ho⟩ | ⟨heq, _⟩
          · exact ho
          · exfalso
            have := hwf.ptr_lt hslot
            omega
        obtain ⟨d, hd, hdbef⟩ := hwf.hreach i q e hslot hostore
        refine ⟨d, ?_, ?_⟩
        · show posIter e.hash c2.mask d = i
          rw [hmask2]
          exact hd
        · intro d' hd'
          obtain ⟨q', hq'⟩ := hdbef d' hd'
          have hch : posIter e.hash c2.mask d' = posIter e.hash c.mask d' := by
            rw [hmask2]
          rw [hch, hent2]
          exact ⟨q', hpres _ _ hq'⟩
    have hW10 : (((c2.old_allocs ++ [c2.alloc]).map LeakyBumpAlloc.content).flatten).Perm
        (List.range c2.store.length) := by
      show (((c1.old_allocs ++
        [{ { c1.alloc with ptr := q_ptr } with content := p :: c1.alloc.content }]).map
        LeakyBumpAlloc.content).flatten).Perm _
      rw [List.map_append, List.flatten_append, hstlen2]
      show ((c1.old_allocs.map LeakyBumpAlloc.content).flatten ++
        (p :: c1.alloc.content ++ [])).Perm _
      rw [List.append_nil, List.range_succ]
      refine List.perm_middle.trans ?_
      have hbase : ((c1.old_allocs.map LeakyBumpAlloc.content).flatten ++
          c1.alloc.content).Perm (List.range c.store.length) := by
        have := hRperm
        rw [List.map_append, List.flatten_append] at this
        simpa using this
      rw [hplen]
      exact ((hbase.cons c.store.length).trans (List.perm_append_singleton _ _).symm)
    have hguardPtr : n ≤ c1.alloc.ptr := by
      have h1 : c1.alloc.allocated = c1.alloc.start + c1.alloc.capacity - c1.alloc.ptr := rfl
      omega
    have hW11 : ∀ a ∈ c2.old_allocs ++ [c2.alloc], a.start = 0 ∧ a.align = alignOfEntry ∧
        a.ptr ≤ a.capacity ∧ (a.ptr = a.capacity ↔ a.content = []) := by
      intro a ha
      show a.start = 0 ∧ _
      have : a ∈ c1.old_allocs ++
          [{ { c1.alloc with ptr := q_ptr } with content := p :: c1.alloc.content }] := ha
      rcases List.mem_append.mp this with ha' | ha'
      · exact hRarenas a (by simp [ha'])
      · rw [List.mem_singleton] at ha'
        subst ha'
        refine ⟨hA0, hA8, ?_, ?_⟩
        · show q_ptr ≤ c1.alloc.capacity
          omega
        · constructor
          · intro hq'
            exfalso
            have hq'' : q_ptr = c1.alloc.capacity := hq'
            have hn17 : 0 < n := by rw [hndef]; omega
            omega
          · intro hcon
            exact absurd hcon (by simp)
    have hW12 : INITIAL_ALLOC / NUM_BINS ≤ c2.alloc.capacity := hRcap
    -- now the final grow-or-not step
    have hfm2len : (c2.entries.filterMap id).length = c.store.length + 1 := by
      rw [hW4.length_eq, List.length_range, hstlen2]
    have hvalid2 : ∀ q ∈ c2.entries.filterMap id, q < c2.store.length := by
      intro q hq
      have := hW4.mem_iff.1 hq
      simpa using this
    have hStored2 : Stored c2 s p := ⟨newE, hnewAt, rfl⟩
    have holdfacts : c2.old_allocs = c.old_allocs ∨
        (c2.old_allocs = c.old_allocs ++ [c.alloc] ∧
          c.alloc.capacity < n + c.alloc.allocated) := hRold
    by_cases htrig : c2.num_entries * 2 > c2.mask
    · -- the insert pushed the shard over the 0.5 load factor: grow
      obtain ⟨c3, hgrow, hg1, hg2, hg3, hg4, hg5, hg6, hg7, hg8, hg9⟩ :=
        grow_spec (c := c2) (by rw [hmask2]; exact hwf.hpow) hvalid2
          (by rw [hnum2, hfm2len, hwf.hcount])
          (by
            rw [hfm2len, hmask2]
            have := hwf.hload
            have := hwf.hcount
            have := hwf.hmask
            omega)
      have hins3 : c.insert s hash = some (p, c3) := by
        rw [hins]
        unfold StringCache.finishInsert
        rw [if_pos htrig, hgrow]
        rfl
      have hwf3 : WFCache H c3 := by
        obtain ⟨k, hk⟩ := hwf.hpow
        refine ⟨?_, ?_, ?_, ?_, ?_, ?_, ?_, ?_, ?_, ?_, ?_, ?_⟩
        · rw [hg1, hmask2]
          have := hwf.hmask
          omega
        · refine ⟨k + 1, ?_⟩
          rw [hg1, hmask2, pow_succ]
          omega
        · rw [hg7, hg1]
        · rw [hg2]
          exact hg8.trans hW4
        · rw [hg3, hg2, hnum2, hwf.hcount, hstlen2]
        · have h1 : c.store.length * 2 ≤ c.mask + 1 := by
            rw [← hwf.hcount]
            exact hwf.hload
          have h2 := hwf.hmask
          rw [hg3, hg1, hmask2, hnum2, hwf.hcount]
          omega
        · rw [hg2]
          exact hW7
        · rw [hg2]
          exact hW8
        · intro i q e hslot hstore
          rw [hg2] at hstore
          exact hg9 i q e hslot hstore
        · rw [hg2, hg4, hg5]
          exact hW10
        · rw [hg4, hg5]
          exact hW11
        · rw [hg4]
          exact hW12
      refine ⟨p, c3, hins3, hwf3, ?_, ?_, ?_, ?_, ?_, ?_⟩
      · obtain ⟨e', he', hch⟩ := hStored2
        exact ⟨e', by rw [hg2]; exact he', hch⟩
      · exact fun q hq => absurd ⟨q, hq⟩ hst
      · intro _
        rw [hg2, hst2, hplen]
        exact ⟨rfl, rfl⟩
      · right
        rw [hg2, hst2]
      · right
        rw [hg1, hmask2]
      · rw [hg5]
        exact holdfacts
    · -- no growth needed
      have hins2 : c.insert s hash = some (p, c2) := by
        rw [hins]
        unfold StringCache.finishInsert
        rw [if_neg htrig]
      have hwf2 : WFCache H c2 := by
        refine ⟨?_, ?_, ?_, hW4, ?_, ?_, hW7, hW8, hW9, hW10, hW11, hW12⟩
        · rw [hmask2]; exact hwf.hmask
        · rw [hmask2]; exact hwf.hpow
        · rw [hent2, List.length_set, hwf.hlen, hmask2]
        · rw [hnum2, hwf.hcount, hstlen2]
        · omega
      refine ⟨p, c2, hins2, hwf2, hStored2, ?_, ?_, ?_, Or.inl hmask2, holdfacts⟩
      · exact fun q hq => absurd ⟨q, hq⟩ hst
      · intro _
        rw [hst2, hplen]
        exact ⟨rfl, rfl⟩
      · right
        rw [hst2]

/-- `get_existing` finds the canonical pointer of a stored string. -/
theorem get_existing_found {H : Bytes → Nat} {c : StringCache} (hwf : WFCache H c)
    {s : Bytes} {p : Nat} (hst : Stored c s p) :
    c.get_existing s (H s) = some (some p) := by
  unfold StringCache.get_existing
  rw [probe_found hwf hst]

/-- `get_existing` returns `None` for a string that is not stored. -/
theorem get_existing_missing {H : Bytes → Nat} {c : StringCache} (hwf : WFCache H c)
    {s : Bytes} (hns : ¬ StoredAny c s) :
    c.get_existing s (H s) = some none := by
  obtain ⟨d₀, _, _, hrun⟩ := probe_miss hwf hns
  unfold StringCache.get_existing
  rw [hrun]

/-- A fresh shard satisfies the invariant. -/
theorem wf_new (H : Bytes → Nat) : WFCache H StringCache.new := by
  have hcap16384 : INITIAL_CAPACITY / NUM_BINS = 16384 := by decide
  have hmasknew : StringCache.new.mask = 16383 := by
    show INITIAL_CAPACITY / NUM_BINS - 1 = 16383
    rw [hcap16384]
  have hrepl : ∀ (i : Nat) (v : Option Nat),
      StringCache.new.entries[i]? = some v → v = none := by
    intro i v hv
    have h1 : StringCache.new.entries = List.replicate (INITIAL_CAPACITY / NUM_BINS) none := rfl
    rw [h1, List.getElem?_replicate] at hv
    by_cases hi : i < INITIAL_CAPACITY / NUM_BINS
    · rw [if_pos hi] at hv
      exact (Option.some.inj hv).symm
    · rw [if_neg hi] at hv
      exact Option.noConfusion hv
  refine ⟨?_, ?_, ?_, ?_, rfl, ?_, ?_, ?_, ?_, ?_, ?_, ?_⟩
  · rw [hmasknew]; omega
  · exact ⟨14, by rw [hmasknew]; decide⟩
  · show (List.replicate (INITIAL_CAPACITY / NUM_BINS) (none : Option Nat)).length = _
    rw [List.length_replicate, hmasknew, hcap16384]
  · show ((List.replicate (INITIAL_CAPACITY / NUM_BINS) (none : Option Nat)).filterMap id).Perm
      (List.range ([] : List StringCacheEntry).length)
    simp
  · show (0 : Nat) * 2 ≤ _
    omega
  · intro e he
    simp only [StringCache.new] at he
    exact absurd he (List.not_mem_nil e)
  · intro p₁ p₂ e₁ e₂ h1 h2 _
    exact absurd h1 (by simp [StringCache.new])
  · intro i p e hslot _
    exact absurd (hrepl i (some p) hslot) (by simp)
  · show ((([] ++ [LeakyBumpAlloc.new (INITIAL_ALLOC / NUM_BINS) alignOfEntry 0]).map
      LeakyBumpAlloc.content).flatten).Perm (List.range ([] : List StringCacheEntry).length)
    simp [LeakyBumpAlloc.new]
  · intro a ha
    have ha2 : a ∈ ([] : List LeakyBumpAlloc) ++
        [LeakyBumpAlloc.new (INITIAL_ALLOC / NUM_BINS) alignOfEntry 0] := ha
    simp only [List.nil_append, List.mem_singleton] at ha2
    subst ha2
    refine ⟨rfl, rfl, by simp [LeakyBumpAlloc.new], by simp [LeakyBumpAlloc.new]⟩
  · exact le_rfl

/-- The freshly initialized shard array satisfies the process
invariant. -/
theorem wfProcess_init (H : Bytes → Nat) : WFProcess H initProcess := by
  have hbval : ∀ (i : Nat) (sc : StringCache), initProcess.bins[i]? = some sc →
      sc = StringCache.new := by
    intro i sc hsc
    have h1 : initProcess.bins = List.replicate NUM_BINS StringCache.new := rfl
    rw [h1, List.getElem?_replicate] at hsc
    by_cases hi : i < NUM_BINS
    · rw [if_pos hi] at hsc
      exact (Option.some.inj hsc).symm
    · rw [if_neg hi] at hsc
      exact Option.noConfusion hsc
  refine ⟨List.length_replicate _ _, ?_, ?_⟩
  · intro i sc hsc
    rw [hbval i sc hsc]
    exact wf_new H
  · intro i sc hsc e he
    rw [hbval i sc hsc] at he
    exact absurd he (List.not_mem_nil e)

/-! ## Stability of handles across operations -/

theorem Extends.refl (P : Process) : Extends P P :=
  ⟨rfl, fun i sc h => ⟨sc, h, [], (List.append_nil _).symm⟩⟩

theorem Extends.trans {P₁ P₂ P₃ : Process} (h₁ : Extends P₁ P₂) (h₂ : Extends P₂ P₃) :
    Extends P₁ P₃ := by
  refine ⟨h₂.1.trans h₁.1, ?_⟩
  intro i sc hsc
  obtain ⟨sc₂, hsc₂, t₁, ht₁⟩ := h₁.2 i sc hsc
  obtain ⟨sc₃, hsc₃, t₂, ht₂⟩ := h₂.2 i sc₂ hsc₂
  exact ⟨sc₃, hsc₃, t₁ ++ t₂, by rw [ht₂, ht₁, List.append_assoc]⟩

/-- Dereferencing a handle gives the same entry in any extension: the
entry a character pointer denotes is never changed. -/
theorem derefEntry_mono {P P' : Process} (hext : Extends P P') {ptr : Ptr}
    {e : StringCacheEntry} (h : derefEntry P ptr = some e) :
    derefEntry P' ptr = some e := by
  unfold derefEntry at h ⊢
  match hsc : P.bins[ptr.1]? with
  | none => rw [hsc] at h; exact Option.noConfusion h
  | some sc =>
    rw [hsc] at h
    have h' : sc.store[ptr.2]? = some e := h
    obtain ⟨sc', hsc', t, ht⟩ := hext.2 ptr.1 sc hsc
    rw [hsc']
    show sc'.store[ptr.2]? = some e
    rw [ht, List.getElem?_append_left (List.getElem?_eq_some.mp h').1]
    exact h'

theorem PStored_mono {P P' : Process} (hext : Extends P P') {s : Bytes} {q : Ptr}
    (h : PStored P s q) : PStored P' s q := by
  obtain ⟨sc, hsc, e, he, hch⟩ := h
  obtain ⟨sc', hsc', t, ht⟩ := hext.2 q.1 sc hsc
  refine ⟨sc', hsc', e, ?_, hch⟩
  rw [ht, List.getElem?_append_left (List.getElem?_eq_some.mp he).1]
  exact he

/-- Growing a well-formed shard preserves the invariant and the
store. -/
theorem grow_wf {H : Bytes → Nat} {sc sc' : StringCache} (hwf : WFCache H sc)
    (hgrow : sc.grow = some sc') : WFCache H sc' ∧ sc'.store = sc.store := by
  have hfmlen : (sc.entries.filterMap id).length = sc.store.length := by
    rw [hwf.hperm.length_eq, List.length_range]
  obtain ⟨c', hgrow', hg1, hg2, hg3, hg4, hg5, hg6, hg7, hg8, hg9⟩ :=
    grow_spec (c := sc) hwf.hpow
      (fun p hp => by
        have := hwf.hperm.mem_iff.1 hp
        simpa using this)
      (by rw [hfmlen, hwf.hcount])
      (by
        rw [hfmlen]
        have h1 := hwf.hload
        have h2 := hwf.hcount
        have h3 := hwf.hmask
        omega)
  have hcc : c' = sc' := by
    rw [hgrow] at hgrow'
    exact (Option.some.inj hgrow').symm
  subst hcc
  obtain ⟨k, hk⟩ := hwf.hpow
  refine ⟨⟨?_, ?_, ?_, ?_, ?_, ?_, ?_, ?_, ?_, ?_, ?_, ?_⟩, hg2⟩
  · rw [hg1]
    have := hwf.hmask
    omega
  · refine ⟨k + 1, ?_⟩
    rw [hg1, pow_succ]
    omega
  · rw [hg7, hg1]
  · rw [hg2]
    exact hg8.trans hwf.hperm
  · rw [hg3, hg2]
    exact hwf.hcount
  · rw [hg3, hg1]
    have := hwf.hload
    omega
  · rw [hg2]
    exact hwf.hint
  · rw [hg2]
    exact hwf.huniq
  · intro i q e hslot hstore
    rw [hg2] at hstore
    exact hg9 i q e hslot hstore
  · rw [hg2, hg4, hg5]
    exact hwf.harenaPerm
  · rw [hg4, hg5]
    exact hwf.harenas
  · rw [hg4]
    exact hwf.hcap

theorem set_getElem?_self {α : Type} : ∀ (l : List α) (i : Nat) (a : α),
    l[i]? = some a → l.set i a = l := by
  intro l
  induction l with
  | nil => intro i a h; simp at h
  | cons x t ih =>
    intro i a h
    match i with
    | 0 =>
      have : x = a := Option.some.inj (by simpa using h)
      subst this
      simp
    | i + 1 =>
      have h' : t[i]? = some a := by simpa using h
      simp [ih i a h']

/-- A stored entry whose bytes are `s` is the literal record the code
writes: hash `H s`, length `|s|`, bytes `s`. -/
theorem stored_entry_eq {H : Bytes → Nat} {c : StringCache} (hwf : WFCache H c)
    {p : Nat} {e : StringCacheEntry} (he : c.store[p]? = some e) {s : Bytes}
    (hch : e.chars = s) : e = { hash := H s, len := s.length, chars := s } := by
  obtain ⟨hl, hh⟩ := hwf.hint e (List.getElem?_mem he)
  match e, hch with
  | { hash := eh, len := el, chars := _ }, rfl =>
    simp only at hl hh
    rw [hl, hh]

/-- Process-level correctness of `ustr` / `Ustr::from`: it succeeds on
a well-formed process, routes to the shard picked by the top hash bits,
returns the canonical handle for `s` (the existing one, with the whole
process untouched, when `s` was already interned), extends the stores,
and preserves the invariant. -/
theorem ustr_spec {H : Bytes → Nat} {P : Process} (hwfp : WFProcess H P) (s : Bytes) :
    ∃ ptr P', ustr H s P = some (ptr, P') ∧ WFProcess H P' ∧ Extends P P' ∧
      ptr.1 = whichbin (H s) ∧
      PStored P' s ptr ∧
      derefEntry P' ptr = some { hash := H s, len := s.length, chars := s } ∧
      (∀ q, PStored P s q → ptr = q ∧ P' = P) ∧
      (∀ t q, PStored P' t q → PStored P t q ∨ t = s) := by
  have hnb : (0 : Nat) < NUM_BINS := by decide
  have hi : whichbin (H s) < NUM_BINS := Nat.mod_lt _ hnb
  have hilen : whichbin (H s) < P.bins.length := by rw [hwfp.hbins]; exact hi
  have hsc : P.bins[whichbin (H s)]? = some (P.bins.get ⟨whichbin (H s), hilen⟩) :=
    List.getElem?_eq_getElem hilen
  set sc := P.bins.get ⟨whichbin (H s), hilen⟩ with hscdef
  have hwf : WFCache H sc := hwfp.hwf _ sc hsc
  obtain ⟨p, c', hins, hwf', hstored', hhit, hmiss, hor, hmask', hold'⟩ :=
    insert_spec hwf s
  set P' : Process := { bins := P.bins.set (whichbin (H s)) c' } with hP'def
  have hbins' : P'.bins[whichbin (H s)]? = some c' := by
    show (P.bins.set (whichbin (H s)) c')[whichbin (H s)]? = some c'
    rw [List.getElem?_set_self hilen]
  have hbinsother : ∀ j : Nat, j ≠ whichbin (H s) → P'.bins[j]? = P.bins[j]? := by
    intro j hj
    show (P.bins.set (whichbin (H s)) c')[j]? = _
    rw [List.getElem?_set_ne (fun hc' => hj hc'.symm)]
  have hext : Extends P P' := by
    refine ⟨List.length_set _ _ _, ?_⟩
    intro j sc₀ hsc₀
    by_cases hj : j = whichbin (H s)
    · subst hj
      have : sc₀ = sc := by
        rw [hsc] at hsc₀
        exact Option.some.inj hsc₀.symm
      subst this
      rcases hor with hcc | hst
      · exact ⟨c', hbins', [], by rw [hcc, List.append_nil]⟩
      · exact ⟨c', hbins', _, hst⟩
    · exact ⟨sc₀, by rw [hbinsother j hj]; exact hsc₀, [], (List.append_nil _).symm⟩
  have hwfp' : WFProcess H P' := by
    refine ⟨by rw [show P'.bins = P.bins.set (whichbin (H s)) c' from rfl,
      List.length_set]; exact hwfp.hbins, ?_, ?_⟩
    · intro j sc₀ hsc₀
      by_cases hj : j = whichbin (H s)
      · subst hj
        rw [hbins'] at hsc₀
        rw [← Option.some.inj hsc₀]
        exact hwf'
      · rw [hbinsother j hj] at hsc₀
        exact hwfp.hwf j sc₀ hsc₀
    · intro j sc₀ hsc₀ e he
      by_cases hj : j = whichbin (H s)
      · subst hj
        rw [hbins'] at hsc₀
        rw [← Option.some.inj hsc₀] at he
        rcases hor with hcc | hstore
        · rw [hcc] at he
          exact hwfp.hroute _ sc hsc e he
        · rw [hstore] at he
          rcases List.mem_append.mp he with he | he
          · exact hwfp.hroute _ sc hsc e he
          · rw [List.mem_singleton] at he
            subst he
            rfl
      · rw [hbinsother j hj] at hsc₀
        exact hwfp.hroute j sc₀ hsc₀ e he
  have hustr : ustr H s P = some ((whichbin (H s), p), P') := by
    simp only [ustr, hsc, hins]
  obtain ⟨e', he', hch'⟩ := hstored'
  have hee : e' = { hash := H s, len := s.length, chars := s } :=
    stored_entry_eq hwf' he' hch'
  refine ⟨(whichbin (H s), p), P', hustr, hwfp', hext, rfl, ?_, ?_, ?_, ?_⟩
  · exact ⟨c', hbins', e', he', hch'⟩
  · show P'.bins[whichbin (H s)]? >>= (fun sc => sc.store[p]?) = _
    rw [hbins']
    show c'.store[p]? = _
    rw [he', hee]
  · intro q hq
    obtain ⟨scq, hscq, eq', heq', hchq⟩ := hq
    have hq1 : q.1 = whichbin (H s) := by
      have hrt := hwfp.hroute q.1 scq hscq eq' (List.getElem?_mem heq')
      obtain ⟨_, hh⟩ := (hwfp.hwf q.1 scq hscq).hint eq' (List.getElem?_mem heq')
      rw [← hrt, hh, hchq]
    have hscq' : scq = sc := by
      rw [hq1] at hscq
      rw [hsc] at hscq
      exact Option.some.inj hscq.symm
    subst hscq'
    obtain ⟨hpq, hcc⟩ := hhit q.2 ⟨eq', heq', hchq⟩
    constructor
    · show (whichbin (H s), p) = (q.1, q.2)
      rw [hq1, ← hpq]
    · show { bins := P.bins.set (whichbin (H s)) c' } = P
      rw [hcc]
      have : P.bins.set (whichbin (H s)) sc = P.bins := set_getElem?_self _ _ _ hsc
      rw [this]
  · intro t q hq
    obtain ⟨scq, hscq, eq', heq', hchq⟩ := hq
    by_cases hj : q.1 = whichbin (H s)
    · rw [hj, hbins'] at hscq
      have : scq = c' := (Option.some.inj hscq).symm
      subst this
      rcases hor with hcc | hstore
      · rw [hcc] at heq'
        left
        refine ⟨sc, ?_, eq', heq', hchq⟩
        rw [hj]
        exact hsc
      · rw [hstore] at heq'
        rw [getElem?_append_singleton] at heq'
        by_cases h1 : q.2 < sc.store.length
        · rw [if_pos h1] at heq'
          left
          refine ⟨sc, ?_, eq', heq', hchq⟩
          rw [hj]
          exact hsc
        · rw [if_neg h1] at heq'
          by_cases h2 : q.2 = sc.store.length
          · rw [if_pos h2] at heq'
            right
            rw [← hchq, (Option.some.inj heq').symm]
          · rw [if_neg h2] at heq'
            exact Option.noConfusion heq'
    · left
      refine ⟨scq, ?_, eq', heq', hchq⟩
      rw [← hbinsother q.1 hj]
      exact hscq

/-- Process-level correctness of `existing_ustr` / `Ustr::from_existing`:
on a well-formed process it returns the canonical handle when `s` is
interned and `None` otherwise (and, by its very type, it never touches
the cache: `get_existing` takes the shard by `&self`). -/
theorem existing_ustr_spec {H : Bytes → Nat} {P : Process} (hwfp : WFProcess H P)
    (s : Bytes) :
    (∀ q, PStored P s q → existing_ustr H s P = some (some q)) ∧
    ((¬ ∃ q, PStored P s q) → existing_ustr H s P = some none) := by
  have hnb : (0 : Nat) < NUM_BINS := by decide
  have hilen : whichbin (H s) < P.bins.length := by
    rw [hwfp.hbins]; exact Nat.mod_lt _ hnb
  have hsc : P.bins[whichbin (H s)]? = some (P.bins.get ⟨whichbin (H s), hilen⟩) :=
    List.getElem?_eq_getElem hilen
  set sc := P.bins.get ⟨whichbin (H s), hilen⟩ with hscdef
  have hwf : WFCache H sc := hwfp.hwf _ sc hsc
  constructor
  · intro q hq
    obtain ⟨scq, hscq, eq', heq', hchq⟩ := hq
    have hq1 : q.1 = whichbin (H s) := by
      have hrt := hwfp.hroute q.1 scq hscq eq' (List.getElem?_mem heq')
      obtain ⟨_, hh⟩ := (hwfp.hwf q.1 scq hscq).hint eq' (List.getElem?_mem heq')
      rw [← hrt, hh, hchq]
    have hscq' : scq = sc := by
      rw [hq1] at hscq
      rw [hsc] at hscq
      exact Option.some.inj hscq.symm
    subst hscq'
    have hge : sc.get_existing s (H s) = some (some q.2) :=
      get_existing_found hwf ⟨eq', heq', hchq⟩
    simp only [existing_ustr, hsc, hge, Option.map_some]
    show some (some (whichbin (H s), q.2)) = some (some q)
    rw [← hq1]
  · intro hns
    have hnst : ¬ StoredAny sc s := by
      intro ⟨p, hp⟩
      exact hns ⟨(whichbin (H s), p), sc, hsc, hp⟩
    have hge : sc.get_existing s (H s) = some none := get_existing_missing hwf hnst
    simp only [existing_ustr, hsc, hge]
    rfl

/-- One cache operation preserves the invariant, only extends the
stores, and adds precisely an interned string to the stored set. -/
theorem stepOp_spec {H : Bytes → Nat} {P P' : Process} {op : CacheOp}
    (hwfp : WFProcess H P) (h : stepOp H op P = some P') :
    WFProcess H P' ∧ Extends P P' ∧
    (∀ t, (∃ q, PStored P' t q) ↔
      ((∃ q, PStored P t q) ∨ ∃ s, op = CacheOp.intern s ∧ t = s)) := by
  match op with
  | .intern s =>
    obtain ⟨ptr, P₁, hustr, hwfp₁, hext₁, _, hstored₁, _, _, hback⟩ := ustr_spec hwfp s
    have hP₁ : P₁ = P' := by
      have h' : (ustr H s P).map (fun r => r.2) = some P' := h
      rw [hustr] at h'
      exact Option.some.inj h'
    subst hP₁
    refine ⟨hwfp₁, hext₁, ?_⟩
    intro t
    constructor
    · intro ⟨q, hq⟩
      rcases hback t q hq with hold | heq
      · exact Or.inl ⟨q, hold⟩
      · exact Or.inr ⟨s, rfl, heq⟩
    · intro hc'
      rcases hc' with ⟨q, hq⟩ | ⟨s', hs', ht⟩
      · exact ⟨q, PStored_mono hext₁ hq⟩
      · have hss : s' = s := by
          injection hs' with hh
          exact hh.symm
        subst hss
        subst ht
        exact ⟨ptr, hstored₁⟩
  | .lookup s =>
    have hP : P' = P := by
      have h' : (existing_ustr H s P).map (fun _ => P) = some P' := h
      match hr : existing_ustr H s P with
      | none => rw [hr] at h'; exact Option.noConfusion h'
      | some r =>
        rw [hr] at h'
        exact (Option.some.inj h').symm
    rw [hP]
    refine ⟨hwfp, Extends.refl P, ?_⟩
    intro t
    constructor
    · exact fun hq => Or.inl hq
    · intro hc'
      rcases hc' with hq | ⟨s', hs', _⟩
      · exact hq
      · exact absurd hs' (by intro hcon; exact CacheOp.noConfusion hcon)
  | .growBin i =>
    have h' : (match P.bins[i]? with
      | none => none
      | some sc => sc.grow.map fun sc' => { bins := P.bins.set i sc' } : Option Process)
        = some P' := h
    match hsc : P.bins[i]? with
    | none => rw [hsc] at h'; exact Option.noConfusion h'
    | some sc =>
      rw [hsc] at h'
      have h2 : sc.grow.map (fun sc' => ({ bins := P.bins.set i sc' } : Process))
          = some P' := h'
      match hgr : sc.grow with
      | none => rw [hgr] at h2; exact Option.noConfusion h2
      | some sc' =>
        rw [hgr] at h2
        have hP' : P' = { bins := P.bins.set i sc' } := (Option.some.inj h2).symm
        obtain ⟨hwf', hstore'⟩ := grow_wf (hwfp.hwf i sc hsc) hgr
        have hilen : i < P.bins.length := (List.getElem?_eq_some.mp hsc).1
        have hbins' : P'.bins[i]? = some sc' := by
          rw [hP']
          show (P.bins.set i sc')[i]? = some sc'
          rw [List.getElem?_set_self hilen]
        have hbinsother : ∀ j : Nat, j ≠ i → P'.bins[j]? = P.bins[j]? := by
          intro j hj
          rw [hP']
          show (P.bins.set i sc')[j]? = _
          rw [List.getElem?_set_ne (fun hc' => hj hc'.symm)]
        have hsame : ∀ (j : Nat) (scj : StringCache), P'.bins[j]? = some scj →
            ∃ scj₀, P.bins[j]? = some scj₀ ∧ scj.store = scj₀.store := by
          intro j scj hscj
          by_cases hj : j = i
          · subst hj
            rw [hbins'] at hscj
            exact ⟨sc, hsc, by rw [← Option.some.inj hscj, hstore']⟩
          · rw [hbinsother j hj] at hscj
            exact ⟨scj, hscj, rfl⟩
        have hext : Extends P P' := by
          refine ⟨by rw [hP']; exact List.length_set _ _ _, ?_⟩
          intro j scj hscj
          by_cases hj : j = i
          · subst hj
            have : scj = sc := by
              rw [hsc] at hscj
              exact Option.some.inj hscj.symm
            subst this
            exact ⟨sc', hbins', [], by rw [hstore', List.append_nil]⟩
          · exact ⟨scj, by rw [hbinsother j hj]; exact hscj, [],
              (List.append_nil _).symm⟩
        refine ⟨?_, hext, ?_⟩
        · refine ⟨by rw [hP', List.length_set]; exact hwfp.hbins, ?_, ?_⟩
          · intro j scj hscj
            by_cases hj : j = i
            · subst hj
              rw [hbins'] at hscj
              rw [← Option.some.inj hscj]
              exact hwf'
            · rw [hbinsother j hj] at hscj
              exact hwfp.hwf j scj hscj
          · intro j scj hscj e he
            by_cases hj : j = i
            · subst hj
              rw [hbins'] at hscj
              rw [← Option.some.inj hscj, hstore'] at he
              exact hwfp.hroute _ sc hsc e he
            · rw [hbinsother j hj] at hscj
              exact hwfp.hroute j scj hscj e he
        · intro t
          constructor
          · intro ⟨q, scq, hscq, hstq⟩
            obtain ⟨scq₀, hscq₀, hsteq⟩ := hsame q.1 scq hscq
            obtain ⟨e, he, hch⟩ := hstq
            rw [hsteq] at he
            exact Or.inl ⟨q, scq₀, hscq₀, e, he, hch⟩
          · intro hc'
            rcases hc' with ⟨q, hq⟩ | ⟨s', hs', _⟩
            · exact ⟨q, PStored_mono hext hq⟩
            · exact absurd hs' (by intro hcon; exact CacheOp.noConfusion hcon)
  | .iterate =>
    have hP : P' = P := by
      have h' : (drainIter P).map (fun _ => P) = some P' := h
      match hr : drainIter P with
      | none => rw [hr] at h'; exact Option.noConfusion h'
      | some r =>
        rw [hr] at h'
        exact (Option.some.inj h').symm
    rw [hP]
    refine ⟨hwfp, Extends.refl P, ?_⟩
    intro t
    constructor
    · exact fun hq => Or.inl hq
    · intro hc'
      rcases hc' with hq | ⟨s', hs', _⟩
      · exact hq
      · exact absurd hs' (by intro hcon; exact CacheOp.noConfusion hcon)

/-- Running any operation sequence preserves the invariant, only
extends the stores, and the strings stored afterwards are the ones
stored before plus the interned ones. -/
theorem runOps_spec {H : Bytes → Nat} : ∀ (ops : List CacheOp) (P P' : Process),
    WFProcess H P → runOps H ops P = some P' →
    WFProcess H P' ∧ Extends P P' ∧
    (∀ t, (∃ q, PStored P' t q) ↔
      ((∃ q, PStored P t q) ∨ CacheOp.intern t ∈ ops)) := by
  intro ops
  induction ops with
  | nil =>
    intro P P' hwfp h
    have : P = P' := Option.some.inj h
    subst this
    exact ⟨hwfp, Extends.refl P, fun t => by simp⟩
  | cons op rest ih =>
    intro P P' hwfp h
    obtain ⟨P₁, h₁, h₂⟩ := Option.bind_eq_some.mp h
    obtain ⟨hwfp₁, hext₁, hiff₁⟩ := stepOp_spec hwfp h₁
    obtain ⟨hwfp', hext', hiff'⟩ := ih P₁ P' hwfp₁ h₂
    refine ⟨hwfp', hext₁.trans hext', ?_⟩
    intro t
    rw [hiff' t, hiff₁ t]
    constructor
    · intro hc'
      rcases hc' with (hq | ⟨s', hs', ht⟩) | hmem
      · exact Or.inl hq
      · subst hs'
        subst ht
        exact Or.inr (List.mem_cons_self _ _)
      · exact Or.inr (List.mem_cons_of_mem _ hmem)
    · intro hc'
      rcases hc' with hq | hmem
      · exact Or.inl (Or.inl hq)
      · rcases List.mem_cons.mp hmem with heq | hmem'
        · exact Or.inl (Or.inr ⟨t, heq.symm, rfl⟩)
        · exact Or.inr hmem'

/-- Every `runOps` execution from the freshly initialized cache reaches
a well-formed process state. -/
theorem wfProcess_run {H : Bytes → Nat} {ops : List CacheOp} {P : Process}
    (h : runOps H ops initProcess = some P) : WFProcess H P :=
  (runOps_spec ops initProcess P (wfProcess_init H) h).1

/-- Nothing is stored in the freshly initialized cache. -/
theorem not_PStored_init {t : Bytes} {q : Ptr} :
    ¬ PStored initProcess t q := by
  intro ⟨sc, hsc, e, he, _⟩
  have h1 : initProcess.bins = List.replicate NUM_BINS StringCache.new := rfl
  rw [h1, List.getElem?_replicate] at hsc
  by_cases hi : q.1 < NUM_BINS
  · rw [if_pos hi] at hsc
    rw [← Option.some.inj hsc] at he
    have : (StringCache.new.store : List StringCacheEntry) = [] := rfl
    rw [this] at he
    simp at he
  · rw [if_neg hi] at hsc
    exact Option.noConfusion hsc

/-! ## The claims -/

/-- C1: For all handles produced in one process by intern (`Ustr::from`
/ `ustr`), pointer equality is equivalent to byte equality: whenever
`intern a` and `intern b` are called at any two points of any execution
from the fresh cache, the returned character pointers are equal iff
`a = b` — byte-equal inputs are canonicalized to one pointer, and
byte-distinct inputs always receive distinct pointers. -/
theorem claim_C1 {H : Bytes → Nat} {ops₀ ops₁ : List CacheOp} {P₁ P₂ P₃ P₄ : Process}
    {a b : Bytes} {pa pb : Ptr}
    (h₀ : runOps H ops₀ initProcess = some P₁)
    (ha : ustr H a P₁ = some (pa, P₂))
    (h₁ : runOps H ops₁ P₂ = some P₃)
    (hb : ustr H b P₃ = some (pb, P₄)) :
    pa = pb ↔ a = b := by
  have hwfp₁ : WFProcess H P₁ := wfProcess_run h₀
  obtain ⟨pa', P₂', hua, hwfp₂', hexta, _, hstoreda, hderefa, _, _⟩ := ustr_spec hwfp₁ a
  rw [ha] at hua
  obtain ⟨hpa, hP₂⟩ := Prod.mk.injEq .. ▸ Option.some.inj hua
  subst hpa
  subst hP₂
  obtain ⟨hwfp₃, hext₃, _⟩ := runOps_spec ops₁ P₂ P₃ hwfp₂' h₁
  obtain ⟨pb', P₄', hub, hwfp₄', hextb, _, hstoredb, hderefb, hhitb, _⟩ := ustr_spec hwfp₃ b
  rw [hb] at hub
  obtain ⟨hpb, hP₄⟩ := Prod.mk.injEq .. ▸ Option.some.inj hub
  subst hpb
  subst hP₄
  constructor
  · intro hpp
    -- equal pointers denote the same entry, whose bytes are both a and b
    have hda : derefEntry P₄ pa = some { hash := H a, len := a.length, chars := a } :=
      derefEntry_mono (hext₃.trans hextb) hderefa
    rw [hpp, hderefb] at hda
    have := Option.some.inj hda
    exact (congrArg StringCacheEntry.chars this).symm
  · intro hab
    subst hab
    -- a is stored at pa from P₂ on; the second intern finds exactly it
    exact (hhitb pa (PStored_mono hext₃ hstoreda)).1.symm

/-- Witness for C1 on a concrete run: intern `[1]` and then `[2]`
starting from the fresh cache; the two handles compare exactly like the
strings. -/
theorem claim_C1_witness :
    ∃ (P₁ P₂ P₃ P₄ : Process) (pa pb : Ptr),
      runOps cHash [] initProcess = some P₁ ∧
      ustr cHash [1] P₁ = some (pa, P₂) ∧
      runOps cHash [] P₂ = some P₃ ∧
      ustr cHash [2] P₃ = some (pb, P₄) ∧
      (pa = pb ↔ ([1] : Bytes) = [2]) := by
  obtain ⟨pa, P₂, hua, hwfp₂, _⟩ := ustr_spec (wfProcess_init cHash) ([1] : Bytes)
  obtain ⟨pb, P₄, hub, _⟩ := ustr_spec hwfp₂ ([2] : Bytes)
  have h₀ : runOps cHash [] initProcess = some initProcess := rfl
  have h₁ : runOps cHash [] P₂ = some P₂ := rfl
  exact ⟨initProcess, P₂, P₂, P₄, pa, pb, h₀, hua, h₁, hub,
    claim_C1 h₀ hua h₁ hub⟩

/-- C2: For every input string `s`, the handle returned by intern
satisfies `as_str = s` and `len = |s|`, and the byte at offset `|s|`
from the character pointer is the NUL terminator `0` (not counted in
`len`). -/
theorem claim_C2 {H : Bytes → Nat} {P : Process} (hwfp : WFProcess H P) (s : Bytes)
    {ptr : Ptr} {P' : Process} (h : ustr H s P = some (ptr, P')) :
    Ustr.as_str P' ptr = some s ∧
    Ustr.len P' ptr = some s.length ∧
    Ustr.charByteAt P' ptr s.length = some 0 := by
  obtain ⟨ptr', P'', hu, _, _, _, _, hderef, _, _⟩ := ustr_spec hwfp s
  rw [h] at hu
  obtain ⟨hp, hP⟩ := Prod.mk.injEq .. ▸ Option.some.inj hu
  subst hp
  subst hP
  refine ⟨?_, ?_, ?_⟩
  · unfold Ustr.as_str
    rw [hderef]
    show some (StringCacheEntry.readChars _ _) = some s
    unfold StringCacheEntry.readChars
    show some ((s ++ [0]).take s.length) = some s
    rw [List.take_left]
  · unfold Ustr.len
    rw [hderef]
    rfl
  · unfold Ustr.charByteAt
    rw [hderef]
    show StringCacheEntry.charByte _ _ = some 0
    unfold StringCacheEntry.charByte
    show (s ++ [0])[s.length]? = some 0
    simp

theorem claim_C2_witness :
    ∃ (ptr : Ptr) (P' : Process),
      ustr cHash [104, 105] initProcess = some (ptr, P') ∧
      Ustr.as_str P' ptr = some [104, 105] ∧
      Ustr.len P' ptr = some 2 ∧
      Ustr.charByteAt P' ptr 2 = some 0 := by
  obtain ⟨ptr, P', hu, _⟩ := ustr_spec (wfProcess_init cHash) ([104, 105] : Bytes)
  obtain ⟨h1, h2, h3⟩ := claim_C2 (wfProcess_init cHash) [104, 105] hu
  exact ⟨ptr, P', hu, h1, h2, h3⟩

/-- Every well-formed shard can grow. -/
theorem grow_total {H : Bytes → Nat} {sc : StringCache} (hwf : WFCache H sc) :
    ∃ sc', sc.grow = some sc' := by
  have hfmlen : (sc.entries.filterMap id).length = sc.store.length := by
    rw [hwf.hperm.length_eq, List.length_range]
  obtain ⟨c', hgrow', _⟩ := grow_spec (c := sc) hwf.hpow
    (fun p hp => by
      have := hwf.hperm.mem_iff.1 hp
      simpa using this)
    (by rw [hfmlen, hwf.hcount])
    (by
      rw [hfmlen]
      have h1 := hwf.hload
      have h2 := hwf.hcount
      have h3 := hwf.hmask
      omega)
  exact ⟨c', hgrow'⟩

/-- `existing_ustr` always returns a value (no fatal path) on a
well-formed process. -/
theorem existing_ustr_total {H : Bytes → Nat} {P : Process} (hwfp : WFProcess H P)
    (s : Bytes) : ∃ r, existing_ustr H s P = some r := by
  classical
  by_cases hex : ∃ q, PStored P s q
  · obtain ⟨q, hq⟩ := hex
    exact ⟨some q, (existing_ustr_spec hwfp s).1 q hq⟩
  · exact ⟨none, (existing_ustr_spec hwfp s).2 hex⟩

/-- C3: a handle keeps dereferencing to the very same entry — hence
`as_str`, `len` and `precomputed_hash` keep returning the same values —
across any later sequence of intern, lookup, grow and iteration
operations (the test-only clear is excluded from `CacheOp`). -/
theorem claim_C3 {H : Bytes → Nat} {P P' : Process} {ops : List CacheOp}
    (hwfp : WFProcess H P) (h : runOps H ops P = some P')
    {ptr : Ptr} {e : StringCacheEntry} (he : derefEntry P ptr = some e) :
    Ustr.as_str P' ptr = Ustr.as_str P ptr ∧
    Ustr.len P' ptr = Ustr.len P ptr ∧
    Ustr.precomputed_hash P' ptr = Ustr.precomputed_hash P ptr := by
  obtain ⟨_, hext, _⟩ := runOps_spec ops P P' hwfp h
  have he' : derefEntry P' ptr = some e := derefEntry_mono hext he
  refine ⟨?_, ?_, ?_⟩
  · unfold Ustr.as_str
    rw [he, he']
  · unfold Ustr.len
    rw [he, he']
  · unfold Ustr.precomputed_hash
    rw [he, he']

theorem claim_C3_witness :
    ∃ (P₁ P₂ : Process) (ptr : Ptr) (e : StringCacheEntry),
      ustr cHash [7] initProcess = some (ptr, P₁) ∧
      runOps cHash [CacheOp.intern [8], CacheOp.lookup [7], CacheOp.growBin 0] P₁
        = some P₂ ∧
      derefEntry P₁ ptr = some e ∧
      Ustr.as_str P₂ ptr = Ustr.as_str P₁ ptr ∧
      Ustr.len P₂ ptr = Ustr.len P₁ ptr ∧
      Ustr.precomputed_hash P₂ ptr = Ustr.precomputed_hash P₁ ptr := by
  obtain ⟨ptr, P₁, hu7, hwfp₁, _, _, _, hderef₁, _, _⟩ :=
    ustr_spec (wfProcess_init cHash) ([7] : Bytes)
  obtain ⟨ptr8, P₁a, hu8, hwfp₁a, _⟩ := ustr_spec hwfp₁ ([8] : Bytes)
  have hstep1 : stepOp cHash (CacheOp.intern [8]) P₁ = some P₁a := by
    show (ustr cHash [8] P₁).map (fun r => r.2) = some P₁a
    rw [hu8]
    rfl
  obtain ⟨r7, hex7⟩ := existing_ustr_total hwfp₁a [7]
  have hstep2 : stepOp cHash (CacheOp.lookup [7]) P₁a = some P₁a := by
    show (existing_ustr cHash [7] P₁a).map (fun _ => P₁a) = some P₁a
    rw [hex7]
    rfl
  have hb0 : (0 : Nat) < P₁a.bins.length := by
    rw [hwfp₁a.hbins]
    decide
  have hsc0 : P₁a.bins[0]? = some (P₁a.bins.get ⟨0, hb0⟩) := List.getElem?_eq_getElem hb0
  obtain ⟨sc', hgr⟩ := grow_total (hwfp₁a.hwf 0 _ hsc0)
  have hstep3 : stepOp cHash (CacheOp.growBin 0) P₁a =
      some { bins := P₁a.bins.set 0 sc' } := by
    show (match P₁a.bins[0]? with
      | none => none
      | some sc => sc.grow.map fun sc' => { bins := P₁a.bins.set 0 sc' }
      : Option Process) = _
    rw [hsc0]
    show (P₁a.bins.get ⟨0, hb0⟩).grow.map
      (fun sc' => ({ bins := P₁a.bins.set 0 sc' } : Process)) = _
    rw [hgr]
    rfl
  have hrun : runOps cHash [CacheOp.intern [8], CacheOp.lookup [7], CacheOp.growBin 0] P₁
      = some { bins := P₁a.bins.set 0 sc' } := by
    show (stepOp cHash (CacheOp.intern [8]) P₁).bind _ = _
    rw [hstep1]
    show (stepOp cHash (CacheOp.lookup [7]) P₁a).bind _ = _
    rw [hstep2]
    show (stepOp cHash (CacheOp.growBin 0) P₁a).bind _ = _
    rw [hstep3]
    rfl
  obtain ⟨h1, h2, h3⟩ := claim_C3 hwfp₁ hrun hderef₁
  exact ⟨P₁, _, ptr, _, hu7, hrun, hderef₁, h1, h2, h3⟩

/-- C4: after any run from the fresh cache, `existing_ustr` /
`Ustr::from_existing` returns a handle — the canonical pointer for `s`
— exactly when `s` was previously interned, returns `None` otherwise,
and (taking the shard by `&self`) leaves the whole cache state
unchanged. -/
theorem claim_C4 {H : Bytes → Nat} {ops : List CacheOp} {P : Process}
    (h : runOps H ops initProcess = some P) (s : Bytes) :
    ((∃ q, existing_ustr H s P = some (some q) ∧ PStored P s q) ↔
      CacheOp.intern s ∈ ops) ∧
    (CacheOp.intern s ∉ ops → existing_ustr H s P = some none) ∧
    (∀ P', stepOp H (CacheOp.lookup s) P = some P' → P' = P) := by
  obtain ⟨hwfp, _, hiff⟩ := runOps_spec ops initProcess P (wfProcess_init H) h
  have hiff' : (∃ q, PStored P s q) ↔ CacheOp.intern s ∈ ops := by
    rw [hiff s]
    constructor
    · intro hc'
      rcases hc' with ⟨q, hq⟩ | hm
      · exact absurd hq not_PStored_init
      · exact hm
    · exact fun hm => Or.inr hm
  refine ⟨?_, ?_, ?_⟩
  · constructor
    · intro ⟨q, _, hq⟩
      exact hiff'.1 ⟨q, hq⟩
    · intro hm
      obtain ⟨q, hq⟩ := hiff'.2 hm
      exact ⟨q, (existing_ustr_spec hwfp s).1 q hq, hq⟩
  · intro hm
    refine (existing_ustr_spec hwfp s).2 ?_
    intro hex
    exact hm (hiff'.1 hex)
  · intro P' hP'
    have h' : (existing_ustr H s P).map (fun _ => P) = some P' := hP'
    match hr : existing_ustr H s P with
    | none => rw [hr] at h'; exact Option.noConfusion h'
    | some r =>
      rw [hr] at h'
      exact (Option.some.inj h').symm

theorem claim_C4_witness :
    ∃ (P : Process),
      runOps cHash [CacheOp.intern [5]] initProcess = some P ∧
      (∃ q, existing_ustr cHash [5] P = some (some q) ∧ PStored P [5] q) ∧
      existing_ustr cHash [6] P = some none := by
  obtain ⟨ptr, P, hu, hwfp, _⟩ := ustr_spec (wfProcess_init cHash) ([5] : Bytes)
  have hrun : runOps cHash [CacheOp.intern [5]] initProcess = some P := by
    show (stepOp cHash (CacheOp.intern [5]) initProcess).bind _ = _
    have hstep : stepOp cHash (CacheOp.intern [5]) initProcess = some P := by
      show (ustr cHash [5] initProcess).map (fun r => r.2) = some P
      rw [hu]
      rfl
    rw [hstep]
    rfl
  obtain ⟨hiff, hnone, _⟩ := claim_C4 hrun [5]
  obtain ⟨h2, _, _⟩ := claim_C4 hrun [6]
  refine ⟨P, hrun, hiff.2 (by simp), ?_⟩
  · refine (claim_C4 hrun [6]).2.1 ?_
    intro hmem
    simp at hmem

/-- C6: after every completed insert the shard keeps its load factor at
most 0.5 (`num_entries * 2 ≤ mask + 1`); the mask is either unchanged
or doubled to `2 * mask + 1`, and `grow` always sets the new mask to
`2 * mask + 1` (it is triggered in `insert` exactly by the test
`num_entries * 2 > mask` on the bumped count). -/
theorem claim_C6 {H : Bytes → Nat} {c : StringCache} (hwf : WFCache H c)
    {s : Bytes} {p : Nat} {c' : StringCache} (h : c.insert s (H s) = some (p, c')) :
    c'.num_entries * 2 ≤ c'.mask + 1 ∧
    (c'.mask = c.mask ∨ c'.mask = 2 * c.mask + 1) ∧
    (∀ (c₀ c₁ : StringCache), c₀.grow = some c₁ → c₁.mask = 2 * c₀.mask + 1) := by
  obtain ⟨p₀, c₀, heq, hwf', _, _, _, _, hmask, _⟩ := insert_spec hwf s
  rw [h] at heq
  obtain ⟨hp, hc⟩ := Prod.mk.injEq .. ▸ Option.some.inj heq
  subst hp
  subst hc
  refine ⟨hwf'.hload, ?_, ?_⟩
  · rcases hmask with h1 | h1
    · exact Or.inl h1
    · exact Or.inr (by omega)
  · intro c₀ c₁ hgr
    have h' : (growLoop c₀.store (c₀.mask * 2 + 1) c₀.entries
        (List.replicate (c₀.mask * 2 + 1 + 1) none) c₀.num_entries).map
        (fun ne => { c₀ with entries := ne, mask := c₀.mask * 2 + 1 }) = some c₁ := hgr
    match hrun : growLoop c₀.store (c₀.mask * 2 + 1) c₀.entries
        (List.replicate (c₀.mask * 2 + 1 + 1) none) c₀.num_entries with
    | none => rw [hrun] at h'; exact Option.noConfusion h'
    | some ne =>
      rw [hrun] at h'
      have := (Option.some.inj h').symm
      rw [this]
      show c₀.mask * 2 + 1 = 2 * c₀.mask + 1
      omega

theorem claim_C6_witness :
    ∃ (p : Nat) (c' : StringCache),
      StringCache.new.insert [3] (cHash [3]) = some (p, c') ∧
      c'.num_entries * 2 ≤ c'.mask + 1 := by
  obtain ⟨p, c', heq, _⟩ := insert_spec (wf_new cHash) [3]
  exact ⟨p, c', heq, (claim_C6 (wf_new cHash) heq).1⟩

/-- C10: the test-only `clear` keeps the slot table's (possibly grown)
length and mask, resets `num_entries` to zero, drops all retired
arenas, installs a fresh `INITIAL_ALLOC / NUM_BINS = 65536`-byte arena
(the table is not shrunk to its initial
`INITIAL_CAPACITY / NUM_BINS = 16384` slots), after which
`total_allocated()` is zero and every lookup returns `None`. -/
theorem claim_C10 {H : Bytes → Nat} {c : StringCache} (hwf : WFCache H c) :
    c.clear.entries.length = c.entries.length ∧
    c.clear.mask = c.mask ∧
    c.clear.num_entries = 0 ∧
    c.clear.old_allocs = [] ∧
    c.clear.alloc = LeakyBumpAlloc.new (INITIAL_ALLOC / NUM_BINS) alignOfEntry 0 ∧
    INITIAL_ALLOC / NUM_BINS = 65536 ∧
    INITIAL_CAPACITY / NUM_BINS = 16384 ∧
    c.clear.totalAllocated = 0 ∧
    (∀ (s : Bytes) (hash : Nat), c.clear.get_existing s hash = some none) := by
  have hzs : zeroSlots (c.mask + 1) c.entries = List.replicate (c.mask + 1) none := by
    unfold zeroSlots
    rw [hwf.hlen, Nat.min_self]
    have hdrop : c.entries.drop (c.mask + 1) = [] := by
      rw [← hwf.hlen]; exact List.drop_length c.entries
    rw [hdrop, List.append_nil]
  refine ⟨?_, rfl, rfl, rfl, rfl, by decide, by decide, ?_, ?_⟩
  · show (zeroSlots (c.mask + 1) c.entries).length = c.entries.length
    rw [hzs, List.length_replicate, hwf.hlen]
  · show c.clear.alloc.allocated + (List.map LeakyBumpAlloc.allocated []).sum = 0
    have h1 : c.clear.alloc.allocated = 0 := by
      show (LeakyBumpAlloc.new (INITIAL_ALLOC / NUM_BINS) alignOfEntry 0).allocated = 0
      simp [LeakyBumpAlloc.new, LeakyBumpAlloc.allocated, LeakyBumpAlloc.endAddr]
    rw [h1]
    rfl
  · intro s hash
    have hposlt : c.mask &&& hash < c.mask + 1 := by
      have := Nat.and_le_left (n := c.mask) (m := hash)
      omega
    have hslot : c.clear.entries[c.clear.mask &&& hash]? = some none := by
      show (zeroSlots (c.mask + 1) c.entries)[c.mask &&& hash]? = some none
      rw [hzs, List.getElem?_replicate, if_pos hposlt]
    unfold StringCache.get_existing
    have : probeLoop c.clear.entries c.clear.store s hash c.clear.mask
        (c.clear.mask + 2) (c.clear.mask &&& hash) 0 = some (.slotFree (c.clear.mask &&& hash)) := by
      show probeLoop c.clear.entries c.clear.store s hash c.clear.mask
        (c.clear.mask + 1 + 1) (c.clear.mask &&& hash) 0 = _
      simp only [probeLoop, hslot]
    rw [this]

theorem claim_C10_witness :
    StringCache.new.clear.entries.length = StringCache.new.entries.length ∧
    StringCache.new.clear.mask = StringCache.new.mask ∧
    StringCache.new.clear.num_entries = 0 ∧
    StringCache.new.clear.old_allocs = [] ∧
    StringCache.new.clear.alloc =
      LeakyBumpAlloc.new (INITIAL_ALLOC / NUM_BINS) alignOfEntry 0 ∧
    INITIAL_ALLOC / NUM_BINS = 65536 ∧
    INITIAL_CAPACITY / NUM_BINS = 16384 ∧
    StringCache.new.clear.totalAllocated = 0 ∧
    (∀ (s : Bytes) (hash : Nat), StringCache.new.clear.get_existing s hash = some none) :=
  claim_C10 (wf_new cHash)

/-- C7: on a power-of-two table the iterative triangular probe
(`pos = mask & hash`, then `pos = (pos + dist) & mask` with `dist`
incremented each step) has cumulative offsets 0, 1, 3, 6, 10, …
(`tri`), visits every slot exactly once in the first `mask + 1` steps
(injective and surjective there), and consequently both the
`get_existing`/`insert` probe loop and `grow`'s empty-slot search
terminate within `mask + 2` steps whenever the table has at least one
empty slot (and, for the probe loop, every stored slot pointer is
backed by an entry). -/
theorem claim_C7 (hash mask : Nat) (hpow : ∃ k, mask + 1 = 2 ^ k) :
    (∀ d, posIter hash mask d = (hash + tri d) % (mask + 1)) ∧
    (∀ i j, i < mask + 1 → j < mask + 1 →
       posIter hash mask i = posIter hash mask j → i = j) ∧
    (∀ t, t < mask + 1 → ∃ d < mask + 1, posIter hash mask d = t) ∧
    (∀ (entries : List (Option Nat)) (store : List StringCacheEntry) (s : Bytes),
       entries.length = mask + 1 →
       (entries.filterMap id).length < mask + 1 →
       (∀ p : Nat, some p ∈ entries → ∃ e, store[p]? = some e) →
       (probeLoop entries store s hash mask (mask + 2) (mask &&& hash) 0).isSome) ∧
    (∀ tbl : List (Option Nat),
       tbl.length = mask + 1 →
       (tbl.filterMap id).length < mask + 1 →
       (findEmptySlot tbl mask (mask + 2) (hash &&& mask) 0).isSome) := by
  refine ⟨fun d => posIter_closed hpow d, fun i j hi hj h => posIter_inj hpow hi hj h,
    fun t ht => posIter_surj hash hpow ht, ?_, ?_⟩
  · intro entries store s hlen hnonfull hvalid
    classical
    obtain ⟨i0, hi0⟩ := exists_none_of_filterMap_lt entries (by omega)
    have hi0lt : i0 < mask + 1 := by
      have := (List.getElem?_eq_some.mp hi0).1
      omega
    obtain ⟨dw, hdwlt, hdw⟩ := posIter_surj hash hpow hi0lt
    have hex : ∃ d, entries[posIter hash mask d]? = some none ∨
        ∃ p e, entries[posIter hash mask d]? = some (some p) ∧ store[p]? = some e ∧
          entryMatches e s hash := ⟨dw, Or.inl (by rw [hdw]; exact hi0)⟩
    set d₀ := Nat.find hex with hd₀def
    have hspec := Nat.find_spec hex
    have hd₀le : d₀ ≤ dw := Nat.find_min' hex (Or.inl (by rw [hdw]; exact hi0))
    have hbef : ∀ d, d < d₀ → ∃ q f, entries[posIter hash mask d]? = some (some q) ∧
        store[q]? = some f ∧ ¬ entryMatches f s hash := by
      intro d hd
      have hnp := Nat.find_min hex hd
      have hn1 : ¬ entries[posIter hash mask d]? = some none :=
        fun h => hnp (Or.inl h)
      have hposlt : posIter hash mask d < entries.length := by
        rw [hlen]; exact posIter_lt hpow d
      have hv : entries[posIter hash mask d]? =
          some (entries.get ⟨posIter hash mask d, hposlt⟩) :=
        List.getElem?_eq_getElem hposlt
      match hvv : entries.get ⟨posIter hash mask d, hposlt⟩ with
      | none => exact absurd (by rw [hv, hvv]) hn1
      | some q =>
        have hslot : entries[posIter hash mask d]? = some (some q) := by rw [hv, hvv]
        obtain ⟨f, hf⟩ := hvalid q (List.getElem?_mem hslot)
        refine ⟨q, f, hslot, hf, fun hm => hnp (Or.inr ⟨q, f, hslot, hf, hm⟩)⟩
    rcases hspec with hnone | ⟨p, e, hslot, hstore, hm⟩
    · have hrun := probeLoop_run_free entries store s hash mask d₀ hnone (mask + 2) 0
        (fun d _ hd => hbef d hd) (Nat.zero_le _) (by omega)
      have hrun' : probeLoop entries store s hash mask (mask + 2) (mask &&& hash) 0 =
          some (.slotFree (posIter hash mask d₀)) := hrun
      rw [hrun']
      rfl
    · have hrun := probeLoop_run_found entries store s hash mask d₀ p e hslot hstore hm
        (mask + 2) 0 (fun d _ hd => hbef d hd) (Nat.zero_le _) (by omega)
      have hrun' : probeLoop entries store s hash mask (mask + 2) (mask &&& hash) 0 =
          some (.found p) := hrun
      rw [hrun']
      rfl
  · intro tbl hlen hnonfull
    obtain ⟨d₀, _, _, _, hrun⟩ := findEmptySlot_spec tbl hash mask hpow hlen hnonfull
    rw [hrun]
    rfl

theorem claim_C7_witness :
    (∀ t, t < 4 → ∃ d < 4, posIter 5 3 d = t) ∧
    (probeLoop [none, none, none, none] [] [7] 5 3 5 (3 &&& 5) 0).isSome ∧
    (findEmptySlot [none, none, none, none] 3 5 (5 &&& 3) 0).isSome := by
  have h := claim_C7 5 3 ⟨2, by decide⟩
  refine ⟨h.2.2.1, ?_, h.2.2.2.2 [none, none, none, none] (by decide) (by decide)⟩
  exact h.2.2.2.1 [none, none, none, none] [] [7] (by decide) (by decide)
    (by intro p hp; simp at hp)

/-- C8: insert's allocation never takes `allocate`'s abort branch or
the `checked_sub` panic (both modelled as `none`).  Generically, an
arena with positive alignment dividing its base, cursor between base
and end, and `n + allocated() ≤ capacity()` serves any `n`-byte request
with the aligned cursor still at or above the base; and in `insert`,
after `retire_old_allocator_if_needed` (which installs a fresh arena of
capacity `max(2 * old_capacity, alloc_size)` when the request would
spill over), that guard holds for the actual request
`size_of::<StringCacheEntry>() + len + 1`, so the call succeeds. -/
theorem claim_C8 {H : Bytes → Nat} {c : StringCache} (hwf : WFCache H c) (s : Bytes) :
    (∀ (a : LeakyBumpAlloc) (n : Nat), 0 < a.align → a.align ∣ a.start →
       a.start ≤ a.ptr → a.ptr ≤ a.endAddr → n + a.allocated ≤ a.capacity →
       ∃ q a', a.allocate n = some (q, a') ∧ a.start ≤ q) ∧
    sizeOfEntryHeader + (s.length + 1) +
        (c.retireIfNeeded (sizeOfEntryHeader + (s.length + 1))).alloc.allocated ≤
      (c.retireIfNeeded (sizeOfEntryHeader + (s.length + 1))).alloc.capacity ∧
    ((c.retireIfNeeded (sizeOfEntryHeader + (s.length + 1))).alloc.capacity =
        c.alloc.capacity ∨
      (c.retireIfNeeded (sizeOfEntryHeader + (s.length + 1))).alloc.capacity =
        max (c.alloc.capacity * 2) (sizeOfEntryHeader + (s.length + 1))) ∧
    ∃ q a', (c.retireIfNeeded (sizeOfEntryHeader + (s.length + 1))).alloc.allocate
        (sizeOfEntryHeader + (s.length + 1)) = some (q, a') ∧
      (c.retireIfNeeded (sizeOfEntryHeader + (s.length + 1))).alloc.start ≤ q := by
  obtain ⟨-, -, -, -, hguard, harenas, -, -, -⟩ :=
    retireIfNeeded_spec hwf (sizeOfEntryHeader + (s.length + 1))
  obtain ⟨hstart, halign, hptr, -⟩ :=
    harenas (c.retireIfNeeded (sizeOfEntryHeader + (s.length + 1))).alloc (by simp)
  refine ⟨?_, hguard, ?_, ?_⟩
  · intro a n ha hdvd hlo hhi hg
    obtain ⟨q, heq, hq, -⟩ := LeakyBumpAlloc.allocate_some ha hdvd hlo hhi hg
    exact ⟨q, _, heq, hq⟩
  · by_cases hcond : sizeOfEntryHeader + (s.length + 1) + c.alloc.allocated >
        c.alloc.capacity
    · right
      show (StringCache.retireIfNeeded c _).alloc.capacity = _
      unfold StringCache.retireIfNeeded
      rw [if_pos hcond]
      rfl
    · left
      show (StringCache.retireIfNeeded c _).alloc.capacity = _
      unfold StringCache.retireIfNeeded
      rw [if_neg hcond]
  · obtain ⟨q, heq, hq, -⟩ := LeakyBumpAlloc.allocate_some
      (a := (c.retireIfNeeded (sizeOfEntryHeader + (s.length + 1))).alloc)
      (by rw [halign]; decide) (by rw [hstart]; exact dvd_zero _)
      (by rw [hstart]; exact Nat.zero_le _)
      (by show _ ≤ (c.retireIfNeeded (sizeOfEntryHeader + (s.length + 1))).alloc.start +
            (c.retireIfNeeded (sizeOfEntryHeader + (s.length + 1))).alloc.capacity
          omega)
      hguard
    exact ⟨q, _, heq, hq⟩

theorem claim_C8_witness :
    ∃ q a', (StringCache.new.retireIfNeeded
        (sizeOfEntryHeader + (List.length [1] + 1))).alloc.allocate
        (sizeOfEntryHeader + (List.length [1] + 1)) = some (q, a') ∧
      (StringCache.new.retireIfNeeded
        (sizeOfEntryHeader + (List.length [1] + 1))).alloc.start ≤ q :=
  (claim_C8 (wf_new cHash) [1]).2.2.2

/-- C9: `whichbin` routes a hash to shard `(hash >> TOP_SHIFT) % NUM_BINS`
with `TOP_SHIFT = 64 - BIN_SHIFT`, which coincides with
`(hash >> TOP_SHIFT) & (NUM_BINS - 1)`; in every state reachable from
the fresh cache each entry sits in exactly the shard its hash routes
to, and no string is stored in two shards (its handle is unique
process-wide). -/
theorem claim_C9 {H : Bytes → Nat} {ops : List CacheOp} {P : Process}
    (hrun : runOps H ops initProcess = some P) :
    TOP_SHIFT = 8 * 8 - BIN_SHIFT ∧
    (∀ h : Nat, whichbin h = (h >>> TOP_SHIFT) % NUM_BINS) ∧
    (∀ h : Nat, whichbin h = (h >>> TOP_SHIFT) &&& (NUM_BINS - 1)) ∧
    (∀ (i : Nat) (sc : StringCache), P.bins[i]? = some sc →
       ∀ e ∈ sc.store, whichbin e.hash = i) ∧
    (∀ (s : Bytes) (q₁ q₂ : Ptr), PStored P s q₁ → PStored P s q₂ → q₁ = q₂) := by
  have hwfp : WFProcess H P := wfProcess_run hrun
  refine ⟨rfl, fun h => rfl, ?_, hwfp.hroute, ?_⟩
  · intro h
    show (h >>> TOP_SHIFT) % NUM_BINS = (h >>> TOP_SHIFT) &&& (NUM_BINS - 1)
    have h1 : (h >>> TOP_SHIFT) &&& (2 ^ 6 - 1) = (h >>> TOP_SHIFT) % 2 ^ 6 :=
      Nat.and_pow_two_sub_one_eq_mod _ 6
    have h2 : NUM_BINS = 2 ^ 6 := rfl
    rw [h2, h1]
  · intro s q₁ q₂ h₁ h₂
    obtain ⟨sc₁, hsc₁, e₁, he₁, hc₁⟩ := h₁
    obtain ⟨sc₂, hsc₂, e₂, he₂, hc₂⟩ := h₂
    have hwf₁ := hwfp.hwf q₁.1 sc₁ hsc₁
    have hh₁ : e₁.hash = H s := by
      have := (hwf₁.hint e₁ (List.getElem?_mem he₁)).2
      rw [this, hc₁]
    have hwf₂ := hwfp.hwf q₂.1 sc₂ hsc₂
    have hh₂ : e₂.hash = H s := by
      have := ((hwfp.hwf q₂.1 sc₂ hsc₂).hint e₂ (List.getElem?_mem he₂)).2
      rw [this, hc₂]
    have hi₁ : whichbin e₁.hash = q₁.1 :=
      hwfp.hroute q₁.1 sc₁ hsc₁ e₁ (List.getElem?_mem he₁)
    have hi₂ : whichbin e₂.hash = q₂.1 :=
      hwfp.hroute q₂.1 sc₂ hsc₂ e₂ (List.getElem?_mem he₂)
    have hieq : q₁.1 = q₂.1 := by rw [← hi₁, ← hi₂, hh₁, hh₂]
    have hsceq : sc₁ = sc₂ := by
      rw [hieq] at hsc₁
      exact Option.some.inj (hsc₁.symm.trans hsc₂)
    subst hsceq
    have hpeq : q₁.2 = q₂.2 := hwf₁.huniq q₁.2 q₂.2 e₁ e₂ he₁ he₂ (hc₁.trans hc₂.symm)
    exact Prod.ext hieq hpeq

theorem claim_C9_witness :
    whichbin 12345 = (12345 >>> TOP_SHIFT) &&& (NUM_BINS - 1) := by
  have hrun : runOps cHash [] initProcess = some initProcess := rfl
  exact (claim_C9 hrun).2.2.1 12345

/-! ## Iteration: resolving arenas and draining the iterator -/

theorem mapM_getElem_mem (store : List StringCacheEntry) :
    ∀ (content : List Nat) (ls : List StringCacheEntry),
    content.mapM (fun p => store[p]?) = some ls →
    ∀ e, (e ∈ ls ↔ ∃ p ∈ content, store[p]? = some e) := by
  intro content
  induction content with
  | nil =>
    intro ls h e
    have hls : ls = [] := (Option.some.inj h).symm
    subst hls
    simp
  | cons p rest ih =>
    intro ls h e
    rw [List.mapM_cons] at h
    match hp : store[p]? with
    | none => rw [hp] at h; exact Option.noConfusion h
    | some e₀ =>
      rw [hp] at h
      match hrest : rest.mapM (fun p => store[p]?) with
      | none => rw [hrest] at h; exact Option.noConfusion h
      | some ls' =>
        rw [hrest] at h
        have hls : ls = e₀ :: ls' := (Option.some.inj h).symm
        subst hls
        constructor
        · intro hmem
          rcases List.mem_cons.mp hmem with heq | hmem'
          · exact ⟨p, List.mem_cons_self _ _, by rw [hp, heq]⟩
          · obtain ⟨q, hq1, hq2⟩ := (ih ls' hrest e).1 hmem'
            exact ⟨q, List.mem_cons_of_mem _ hq1, hq2⟩
        · intro ⟨q, hq1, hq2⟩
          rcases List.mem_cons.mp hq1 with heq | hmem'
          · subst heq
            rw [hp] at hq2
            rw [← Option.some.inj hq2]
            exact List.mem_cons_self _ _
          · exact List.mem_cons_of_mem _ ((ih ls' hrest e).2 ⟨q, hmem', hq2⟩)

theorem mapM_getElem_total (store : List StringCacheEntry) :
    ∀ (content : List Nat), (∀ p ∈ content, p < store.length) →
    ∃ ls, content.mapM (fun p => store[p]?) = some ls := by
  intro content
  induction content with
  | nil => exact fun _ => ⟨[], rfl⟩
  | cons p rest ih =>
    intro hv
    obtain ⟨ls', hls'⟩ := ih (fun q hq => hv q (List.mem_cons_of_mem _ hq))
    have hp : p < store.length := hv p (List.mem_cons_self _ _)
    refine ⟨store.get ⟨p, hp⟩ :: ls', ?_⟩
    rw [List.mapM_cons, List.getElem?_eq_getElem hp, hls']
    rfl

theorem mapM_id_some {α : Type} :
    ∀ (l : List (Option α)), (∀ o ∈ l, ∃ x, o = some x) →
    ∃ l', l.mapM id = some l' ∧ ∀ x : α, (x ∈ l' ↔ some x ∈ l) := by
  intro l
  induction l with
  | nil => exact fun _ => ⟨[], rfl, by simp⟩
  | cons o rest ih =>
    intro hv
    obtain ⟨x, hx⟩ := hv o (List.mem_cons_self _ _)
    obtain ⟨l', hl', hmem⟩ := ih (fun o' ho' => hv o' (List.mem_cons_of_mem _ ho'))
    subst hx
    refine ⟨x :: l', ?_, ?_⟩
    · rw [List.mapM_cons, hl']
      rfl
    · intro y
      simp only [List.mem_cons, hmem y, Option.some.injEq]

/-- Complete run of the drain loop: over ranges that are all non-empty,
from any in-bounds position, `next` yields exactly the remaining
entries' strings and then stops. -/
theorem iterDrain_run (L : List (List StringCacheEntry))
    (hne : ∀ l ∈ L, l ≠ []) :
    ∀ (fuel ca idx : Nat) (acc : List Bytes) (cur : List StringCacheEntry),
    L[ca]? = some cur → idx ≤ cur.length →
    (remEntries L ca idx).length + (L.length - ca) ≤ fuel →
    iterDrain fuel ⟨L, ca, idx⟩ acc =
      some (acc.reverse ++ (remEntries L ca idx).map
        (fun e => e.readChars e.len)) := by
  intro fuel
  induction fuel with
  | zero =>
    intro ca idx acc cur hca _ hfuel
    have hcalt : ca < L.length := (List.getElem?_eq_some.mp hca).1
    omega
  | succ fuel ih =>
    intro ca idx acc cur hca hidx hfuel
    have hcalt : ca < L.length := (List.getElem?_eq_some.mp hca).1
    have hrem : remEntries L ca idx = cur.drop idx ++ (L.drop (ca + 1)).flatten := by
      unfold remEntries
      rw [hca]
    rcases Nat.lt_or_ge idx cur.length with hlt | hge
    · have he : cur[idx]? = some (cur.get ⟨idx, hlt⟩) := List.getElem?_eq_getElem hlt
      have hcur_drop : cur.drop idx = cur.get ⟨idx, hlt⟩ :: cur.drop (idx + 1) :=
        List.drop_eq_getElem_cons hlt
      have hnext : iterNext ⟨L, ca, idx⟩ =
          some (some ((cur.get ⟨idx, hlt⟩).readChars (cur.get ⟨idx, hlt⟩).len,
            ⟨L, ca, idx + 1⟩)) := by
        simp only [iterNext, hca]
        rw [if_neg (by omega)]
        simp only [iterParse, hca, he]
      have hstep : iterDrain (fuel + 1) ⟨L, ca, idx⟩ acc =
          iterDrain fuel ⟨L, ca, idx + 1⟩
            ((cur.get ⟨idx, hlt⟩).readChars (cur.get ⟨idx, hlt⟩).len :: acc) := by
        simp only [iterDrain, hnext]
      have hrem' : remEntries L ca (idx + 1) =
          cur.drop (idx + 1) ++ (L.drop (ca + 1)).flatten := by
        unfold remEntries
        rw [hca]
      have hrem_eq : remEntries L ca idx =
          cur.get ⟨idx, hlt⟩ :: remEntries L ca (idx + 1) := by
        rw [hrem, hrem', hcur_drop]
        rfl
      have hbound : (remEntries L ca (idx + 1)).length + (L.length - ca) ≤ fuel := by
        have : (remEntries L ca idx).length = (remEntries L ca (idx + 1)).length + 1 := by
          rw [hrem_eq]
          rfl
        omega
      rw [hstep, ih ca (idx + 1) _ cur hca (by omega) hbound, hrem_eq]
      simp
    · have hidx_eq : idx = cur.length := Nat.le_antisymm hidx hge
      by_cases hlast : ca = L.length - 1
      · have hnext : iterNext ⟨L, ca, idx⟩ = some none := by
          simp only [iterNext, hca]
          rw [if_pos hge, if_pos hlast]
        have hstep : iterDrain (fuel + 1) ⟨L, ca, idx⟩ acc = some acc.reverse := by
          simp only [iterDrain, hnext]
        have hrem0 : remEntries L ca idx = [] := by
          have hdropL : L.drop (ca + 1) = [] := List.drop_eq_nil_of_le (by omega)
          rw [hrem, hidx_eq, List.drop_length, hdropL]
          rfl
        rw [hstep, hrem0]
        simp
      · have hca1 : ca + 1 < L.length := by omega
        have hnext_r : L[ca + 1]? = some (L.get ⟨ca + 1, hca1⟩) :=
          List.getElem?_eq_getElem hca1
        have hnxt_ne : L.get ⟨ca + 1, hca1⟩ ≠ [] :=
          hne _ (List.getElem?_mem hnext_r)
        obtain ⟨e, rest', hnxt_eq⟩ := List.exists_cons_of_ne_nil hnxt_ne
        have he0 : (L.get ⟨ca + 1, hca1⟩)[0]? = some e := by
          rw [hnxt_eq]
          simp
        have hnext : iterNext ⟨L, ca, idx⟩ =
            some (some (e.readChars e.len, ⟨L, ca + 1, 1⟩)) := by
          simp only [iterNext, hca]
          rw [if_pos hge, if_neg hlast]
          simp only [iterParse, hnext_r, he0]
        have hstep : iterDrain (fuel + 1) ⟨L, ca, idx⟩ acc =
            iterDrain fuel ⟨L, ca + 1, 1⟩ (e.readChars e.len :: acc) := by
          simp only [iterDrain, hnext]
        have hrem1 : remEntries L (ca + 1) 1 =
            rest' ++ (L.drop (ca + 2)).flatten := by
          unfold remEntries
          rw [hnext_r, hnxt_eq]
          rfl
        have hdrop : L.drop (ca + 1) = L.get ⟨ca + 1, hca1⟩ :: L.drop (ca + 2) :=
          List.drop_eq_getElem_cons hca1
        have hrem_eq : remEntries L ca idx = e :: remEntries L (ca + 1) 1 := by
          rw [hrem, hidx_eq, List.drop_length, hdrop, hrem1, hnxt_eq]
          simp
        have hbound : (remEntries L (ca + 1) 1).length + (L.length - (ca + 1)) ≤ fuel := by
          have : (remEntries L ca idx).length = (remEntries L (ca + 1) 1).length + 1 := by
            rw [hrem_eq]
            rfl
          omega
        rw [hstep, ih (ca + 1) 1 _ _ hnext_r (by rw [hnxt_eq]; simp) hbound, hrem_eq]
        simp

theorem noEmptyRetired_init : NoEmptyRetired initProcess := by
  intro sc hsc a ha
  have h1 : initProcess.bins = List.replicate NUM_BINS StringCache.new := rfl
  rw [h1] at hsc
  have h2 : sc = StringCache.new := List.eq_of_mem_replicate hsc
  subst h2
  have h3 : StringCache.new.old_allocs = [] := rfl
  rw [h3] at ha
  exact absurd ha (List.not_mem_nil a)

/-- A step whose allocation request (if any) fits in a fresh per-shard
arena never retires an empty arena: retirement requires the request
plus the current fill to exceed the capacity, and an empty arena has
capacity at least `INITIAL_ALLOC / NUM_BINS`. -/
theorem noEmptyRetired_step {H : Bytes → Nat} {P P' : Process} {op : CacheOp}
    (hwfp : WFProcess H P) (hner : NoEmptyRetired P)
    (hbound : ∀ s, op = CacheOp.intern s →
      sizeOfEntryHeader + (s.length + 1) ≤ INITIAL_ALLOC / NUM_BINS)
    (h : stepOp H op P = some P') : NoEmptyRetired P' := by
  match op with
  | .lookup s =>
    have h' : (existing_ustr H s P).map (fun _ => P) = some P' := h
    match he : existing_ustr H s P with
    | none => rw [he] at h'; exact Option.noConfusion h'
    | some r =>
      rw [he] at h'
      rw [← Option.some.inj h']
      exact hner
  | .iterate =>
    have h' : (drainIter P).map (fun _ => P) = some P' := h
    match he : drainIter P with
    | none => rw [he] at h'; exact Option.noConfusion h'
    | some r =>
      rw [he] at h'
      rw [← Option.some.inj h']
      exact hner
  | .growBin i =>
    have h' : (match P.bins[i]? with
      | none => none
      | some sc => sc.grow.map fun sc' => { bins := P.bins.set i sc' }) = some P' := h
    match hb : P.bins[i]? with
    | none => rw [hb] at h'; exact Option.noConfusion h'
    | some sc =>
      rw [hb] at h'
      have h'' : sc.grow.map (fun sc' => ({ bins := P.bins.set i sc' } : Process)) =
          some P' := h'
      match hg : sc.grow with
      | none => rw [hg] at h''; exact Option.noConfusion h''
      | some sc' =>
        rw [hg] at h''
        have hP' : P' = { bins := P.bins.set i sc' } := (Option.some.inj h'').symm
        have holds : sc'.old_allocs = sc.old_allocs := by
          have hg' : (growLoop sc.store (sc.mask * 2 + 1) sc.entries
              (List.replicate (sc.mask * 2 + 1 + 1) none) sc.num_entries).map
              (fun ne => { sc with entries := ne, mask := sc.mask * 2 + 1 }) =
              some sc' := hg
          match hrun : growLoop sc.store (sc.mask * 2 + 1) sc.entries
              (List.replicate (sc.mask * 2 + 1 + 1) none) sc.num_entries with
          | none => rw [hrun] at hg'; exact Option.noConfusion hg'
          | some ne =>
            rw [hrun] at hg'
            rw [← Option.some.inj hg']
        subst hP'
        intro sc'' hsc'' a ha
        rcases List.mem_or_eq_of_mem_set hsc'' with hmem | heq
        · exact hner sc'' hmem a ha
        · subst heq
          rw [holds] at ha
          exact hner sc (List.getElem?_mem hb) a ha
  | .intern s =>
    have hwb : whichbin (H s) < P.bins.length := by
      rw [hwfp.hbins]
      show (H s >>> TOP_SHIFT) % NUM_BINS < NUM_BINS
      exact Nat.mod_lt _ (by decide)
    have hsc : P.bins[whichbin (H s)]? =
        some (P.bins.get ⟨whichbin (H s), hwb⟩) := List.getElem?_eq_getElem hwb
    have hwf : WFCache H (P.bins.get ⟨whichbin (H s), hwb⟩) := hwfp.hwf _ _ hsc
    obtain ⟨p₀, c₀, hins, hwf₀, _, _, _, _, _, holdalloc⟩ := insert_spec hwf s
    have hustr : ustr H s P = some ((whichbin (H s), p₀),
        { bins := P.bins.set (whichbin (H s)) c₀ }) := by
      simp only [ustr, hsc, hins]
    have h' : (ustr H s P).map (fun r => r.2) = some P' := h
    rw [hustr] at h'
    have hP' : P' = { bins := P.bins.set (whichbin (H s)) c₀ } :=
      (Option.some.inj h').symm
    subst hP'
    intro sc'' hsc'' a ha
    rcases List.mem_or_eq_of_mem_set hsc'' with hmem | heq
    · exact hner sc'' hmem a ha
    · subst heq
      rcases holdalloc with hsame | ⟨happ, hcaplt⟩
      · rw [hsame] at ha
        exact hner _ (List.getElem?_mem hsc) a ha
      · rw [happ] at ha
        rcases List.mem_append.mp ha with hmem' | hmem'
        · exact hner _ (List.getElem?_mem hsc) a hmem'
        · rw [List.mem_singleton] at hmem'
          subst hmem'
          obtain ⟨hA0, -, hAle, hAiff⟩ :=
            hwf.harenas (P.bins.get ⟨whichbin (H s), hwb⟩).alloc (by simp)
          intro hcontent
          have hptr := hAiff.mpr hcontent
          have hallocated : (P.bins.get ⟨whichbin (H s), hwb⟩).alloc.allocated = 0 := by
            show (P.bins.get ⟨whichbin (H s), hwb⟩).alloc.start +
              (P.bins.get ⟨whichbin (H s), hwb⟩).alloc.capacity -
              (P.bins.get ⟨whichbin (H s), hwb⟩).alloc.ptr = 0
            omega
          have hb := hbound s rfl
          have hcap := hwf.hcap
          omega

theorem noEmptyRetired_run {H : Bytes → Nat} :
    ∀ (ops : List CacheOp) (P P' : Process), WFProcess H P → NoEmptyRetired P →
    (∀ s, CacheOp.intern s ∈ ops →
      sizeOfEntryHeader + (s.length + 1) ≤ INITIAL_ALLOC / NUM_BINS) →
    runOps H ops P = some P' → NoEmptyRetired P' := by
  intro ops
  induction ops with
  | nil =>
    intro P P' _ hner _ h
    rw [← Option.some.inj h]
    exact hner
  | cons op rest ih =>
    intro P P' hwfp hner hbound h
    obtain ⟨P₁, h₁, h₂⟩ := Option.bind_eq_some.mp h
    have hwfp₁ := (stepOp_spec hwfp h₁).1
    have hner₁ := noEmptyRetired_step hwfp hner
      (fun s hs => hbound s (by rw [← hs]; exact List.mem_cons_self _ _)) h₁
    exact ih P₁ P' hwfp₁ hner₁ (fun s hs => hbound s (List.mem_cons_of_mem _ hs)) h₂

theorem readChars_len_eq {H : Bytes → Nat} {sc : StringCache} (hwf : WFCache H sc)
    {e : StringCacheEntry} (he : e ∈ sc.store) : e.readChars e.len = e.chars := by
  obtain ⟨hlen, -⟩ := hwf.hint e he
  show (e.chars ++ [0]).take e.len = e.chars
  rw [hlen, List.take_left]

/-- What one shard contributes to the iterator's ranges: on a
well-formed shard with no empty retired arena, every collected range
resolves, every resolved range is non-empty, its entries are exactly
store entries, and every store entry shows up in some collected
range. -/
theorem collectBin_spec {H : Bytes → Nat} {sc : StringCache} (hwf : WFCache H sc)
    (hner : ∀ a ∈ sc.old_allocs, a.content ≠ []) :
    (∀ o ∈ collectBin sc, ∃ ls, o = some ls) ∧
    (∀ ls, some ls ∈ collectBin sc → ls ≠ [] ∧ ∀ e ∈ ls, e ∈ sc.store) ∧
    (∀ e ∈ sc.store, ∃ ls, some ls ∈ collectBin sc ∧ e ∈ ls) := by
  have hvalid : ∀ a ∈ sc.old_allocs ++ [sc.alloc], ∀ p ∈ a.content,
      p < sc.store.length := by
    intro a ha p hp
    have hpmem : p ∈ ((sc.old_allocs ++ [sc.alloc]).map LeakyBumpAlloc.content).flatten :=
      List.mem_flatten.mpr ⟨a.content, List.mem_map.mpr ⟨a, ha, rfl⟩, hp⟩
    exact List.mem_range.mp (hwf.harenaPerm.mem_iff.mp hpmem)
  have hres : ∀ a ∈ sc.old_allocs ++ [sc.alloc], ∃ ls,
      resolveArena sc.store a = some ls ∧
      ∀ e, (e ∈ ls ↔ ∃ p ∈ a.content, sc.store[p]? = some e) := by
    intro a ha
    obtain ⟨ls, hls⟩ := mapM_getElem_total sc.store a.content (hvalid a ha)
    exact ⟨ls, hls, mapM_getElem_mem sc.store a.content ls hls⟩
  obtain ⟨hA0, -, -, hAiff⟩ := hwf.harenas sc.alloc (by simp)
  have hendAddr : sc.alloc.endAddr = sc.alloc.capacity := by
    show sc.alloc.start + sc.alloc.capacity = sc.alloc.capacity
    omega
  -- membership in the collected list, unpacked
  have hunpack : ∀ o, o ∈ collectBin sc →
      ∃ a, a ∈ sc.old_allocs ++ [sc.alloc] ∧ resolveArena sc.store a = o ∧
        a.content ≠ [] := by
    intro o ho
    rcases List.mem_append.mp ho with ho | ho
    · obtain ⟨a, ha, hao⟩ := List.mem_map.mp ho
      exact ⟨a, List.mem_append_left _ ha, hao, hner a ha⟩
    · by_cases hc : sc.alloc.ptr ≠ sc.alloc.endAddr
      · rw [if_pos hc] at ho
        rw [List.mem_singleton] at ho
        refine ⟨sc.alloc, List.mem_append_right _ (by simp), ho.symm, ?_⟩
        intro hcontent
        exact hc (by rw [hendAddr]; exact hAiff.mpr hcontent)
      · rw [if_neg hc] at ho
        exact absurd ho (List.not_mem_nil o)
  refine ⟨?_, ?_, ?_⟩
  · intro o ho
    obtain ⟨a, ha, hao, -⟩ := hunpack o ho
    obtain ⟨ls, hls, -⟩ := hres a ha
    exact ⟨ls, by rw [← hao, hls]⟩
  · intro ls hls
    obtain ⟨a, ha, hao, hcne⟩ := hunpack (some ls) hls
    obtain ⟨ls', hls', hiff⟩ := hres a ha
    have hls'eq : ls' = ls := Option.some.inj (hls' ▸ hao)
    subst hls'eq
    constructor
    · obtain ⟨p, rest, hcont⟩ := List.exists_cons_of_ne_nil hcne
      have hp : p ∈ a.content := by rw [hcont]; exact List.mem_cons_self _ _
      have hplt := hvalid a ha p hp
      have hpe : sc.store[p]? = some (sc.store.get ⟨p, hplt⟩) :=
        List.getElem?_eq_getElem hplt
      exact List.ne_nil_of_mem ((hiff _).mpr ⟨p, hp, hpe⟩)
    · intro e he
      obtain ⟨p, -, hpe⟩ := (hiff e).mp he
      exact List.getElem?_mem hpe
  · intro e he
    obtain ⟨p, hpe⟩ := exists_index_of_mem he
    have hplt : p < sc.store.length := (List.getElem?_eq_some.mp hpe).1
    have hpflat : p ∈ ((sc.old_allocs ++ [sc.alloc]).map LeakyBumpAlloc.content).flatten :=
      hwf.harenaPerm.mem_iff.mpr (List.mem_range.mpr hplt)
    obtain ⟨cl, hclmem, hpcl⟩ := List.mem_flatten.mp hpflat
    obtain ⟨a, ha, hacl⟩ := List.mem_map.mp hclmem
    obtain ⟨ls, hls, hiff⟩ := hres a ha
    refine ⟨ls, ?_, (hiff e).mpr ⟨p, by rw [hacl]; exact hpcl, hpe⟩⟩
    rcases List.mem_append.mp ha with ha' | ha'
    · exact List.mem_append_left _ (List.mem_map.mpr ⟨a, ha', hls⟩)
    · rw [List.mem_singleton] at ha'
      have hcne : sc.alloc.content ≠ [] := by
        intro hc
        have hpa : p ∈ a.content := by rw [hacl]; exact hpcl
        rw [ha', hc] at hpa
        exact List.not_mem_nil p hpa
      have hptr : sc.alloc.ptr ≠ sc.alloc.endAddr := by
        intro hp
        exact hcne (hAiff.mp (by rw [← hendAddr]; exact hp))
      refine List.mem_append_right _ ?_
      rw [if_pos hptr]
      rw [List.mem_singleton, ← ha', hls]

/-- Full-run correctness of the snapshot-and-drain iterator: on a
well-formed, non-empty process state with no empty retired arena, the
drain succeeds and yields exactly the stored strings. -/
theorem drainIter_spec {H : Bytes → Nat} {P : Process} (hwfp : WFProcess H P)
    (hner : NoEmptyRetired P) {t₀ : Bytes} {q₀ : Ptr} (hsome : PStored P t₀ q₀) :
    ∃ l, drainIter P = some l ∧ ∀ t, (t ∈ l ↔ ∃ q, PStored P t q) := by
  classical
  have hflat_all_some : ∀ o ∈ (P.bins.map collectBin).flatten, ∃ x, o = some x := by
    intro o ho
    obtain ⟨cl, hclmem, hocl⟩ := List.mem_flatten.mp ho
    obtain ⟨sc, hscmem, hcl⟩ := List.mem_map.mp hclmem
    obtain ⟨i, hi⟩ := exists_index_of_mem hscmem
    have hwf := hwfp.hwf i sc hi
    subst hcl
    exact (collectBin_spec hwf (hner sc hscmem)).1 o hocl
  obtain ⟨allocs, hallocs, hmemA⟩ :=
    mapM_id_some (P.bins.map collectBin).flatten hflat_all_some
  have hforward : ∀ ls ∈ allocs, ls ≠ [] ∧
      ∀ e ∈ ls, ∃ (i : Nat) (sc : StringCache), P.bins[i]? = some sc ∧ e ∈ sc.store := by
    intro ls hls
    have hsome' : some ls ∈ (P.bins.map collectBin).flatten := (hmemA ls).mp hls
    obtain ⟨cl, hclmem, hocl⟩ := List.mem_flatten.mp hsome'
    obtain ⟨sc, hscmem, hcl⟩ := List.mem_map.mp hclmem
    obtain ⟨i, hi⟩ := exists_index_of_mem hscmem
    have hwf := hwfp.hwf i sc hi
    subst hcl
    obtain ⟨hne', hmem'⟩ := (collectBin_spec hwf (hner sc hscmem)).2.1 ls hocl
    exact ⟨hne', fun e he => ⟨i, sc, hi, hmem' e he⟩⟩
  have hbackward : ∀ (i : Nat) (sc : StringCache), P.bins[i]? = some sc →
      ∀ e ∈ sc.store, ∃ ls ∈ allocs, e ∈ ls := by
    intro i sc hi e he
    have hwf := hwfp.hwf i sc hi
    have hscmem : sc ∈ P.bins := List.getElem?_mem hi
    obtain ⟨ls, hlsC, hels⟩ := (collectBin_spec hwf (hner sc hscmem)).2.2 e he
    refine ⟨ls, (hmemA ls).mpr ?_, hels⟩
    exact List.mem_flatten.mpr ⟨collectBin sc, List.mem_map.mpr ⟨sc, hscmem, rfl⟩, hlsC⟩
  obtain ⟨sc₀, hsc₀, e₀, he₀, hch₀⟩ := hsome
  obtain ⟨ls₀, hls₀A, hels₀⟩ := hbackward q₀.1 sc₀ hsc₀ e₀ (List.getElem?_mem he₀)
  have hAne : allocs ≠ [] := List.ne_nil_of_mem hls₀A
  have hlen0 : 0 < allocs.length := List.length_pos.mpr hAne
  have h0 : allocs[0]? = some (allocs.get ⟨0, hlen0⟩) := List.getElem?_eq_getElem hlen0
  have hit : stringCacheIter P = some ⟨allocs, 0, 0⟩ := by
    simp only [stringCacheIter, hallocs, h0]
  have hrem_flat : remEntries allocs 0 0 = allocs.flatten := by
    obtain ⟨l0, rest, hinst⟩ := List.exists_cons_of_ne_nil hAne
    subst hinst
    unfold remEntries
    simp
  have hfuelok : (remEntries allocs 0 0).length + (allocs.length - 0) ≤
      iterFuel ⟨allocs, 0, 0⟩ := by
    show _ ≤ (allocs.map List.length).sum + allocs.length + 1
    rw [hrem_flat, List.length_flatten]
    omega
  have hrun := iterDrain_run allocs (fun l hl => (hforward l hl).1)
    (iterFuel ⟨allocs, 0, 0⟩) 0 0 [] _ h0 (Nat.zero_le _) hfuelok
  refine ⟨(allocs.flatten).map (fun e => e.readChars e.len), ?_, ?_⟩
  · show (stringCacheIter P).bind (fun it => iterDrain (iterFuel it) it []) = _
    rw [hit]
    show iterDrain (iterFuel ⟨allocs, 0, 0⟩) ⟨allocs, 0, 0⟩ [] = _
    rw [hrun, hrem_flat]
    rfl
  · intro t
    constructor
    · intro ht
      obtain ⟨e, heflat, het⟩ := List.mem_map.mp ht
      obtain ⟨ls, hlsA, hels⟩ := List.mem_flatten.mp heflat
      obtain ⟨i, sc, hi, hestore⟩ := (hforward ls hlsA).2 e hels
      obtain ⟨p, hpe⟩ := exists_index_of_mem hestore
      have hwf := hwfp.hwf i sc hi
      have hchars : e.readChars e.len = e.chars := readChars_len_eq hwf hestore
      exact ⟨(i, p), sc, hi, e, hpe, by rw [← het, hchars]⟩
    · intro ⟨q, sc, hq, e, hqe, hqch⟩
      have hwf := hwfp.hwf q.1 sc hq
      have hestore : e ∈ sc.store := List.getElem?_mem hqe
      obtain ⟨ls, hlsA, hels⟩ := hbackward q.1 sc hq e hestore
      refine List.mem_map.mpr ⟨e, List.mem_flatten.mpr ⟨ls, hlsA, hels⟩, ?_⟩
      rw [readChars_len_eq hwf hestore, hqch]

/-- C5 counterexample: the claim includes the empty multiset, but on the
freshly initialized cache (zero strings interned, every shard's current
arena still empty, hence no range collected) `string_cache_iter()`
evaluates `allocs[0]` on an empty vector and panics — modelled as
`none` — so no iteration happens at all, rather than an empty one. -/
theorem claim_C5_counterexample :
    runOps cHash [] initProcess = some initProcess ∧
    (∀ (t : Bytes) (q : Ptr), ¬ PStored initProcess t q) ∧
    stringCacheIter initProcess = none ∧
    drainIter initProcess = none :=
  ⟨rfl, fun _ _ => not_PStored_init, rfl, rfl⟩

/-- C5 (amended): after a run from the fresh cache that interns at
least one string, every interned string fitting a fresh per-shard arena
(`size_of::<StringCacheEntry>() + len + 1 ≤ INITIAL_ALLOC / NUM_BINS`,
i.e. `17 + len ≤ 65536`), the snapshot-and-drain iteration succeeds and
yields exactly the set of distinct interned strings.  (The original
claim also covers the empty multiset — refuted by
`stringCacheIter initProcess = none`, the `allocs[0]` panic — and
over-long strings, which retire a still-empty arena whose empty range
the iterator then mis-parses.) -/
theorem claim_C5 {H : Bytes → Nat} {ops : List CacheOp} {P : Process}
    (hrun : runOps H ops initProcess = some P)
    (hbound : ∀ s, CacheOp.intern s ∈ ops →
      sizeOfEntryHeader + (s.length + 1) ≤ INITIAL_ALLOC / NUM_BINS)
    (hne : ∃ s, CacheOp.intern s ∈ ops) :
    ∃ l, drainIter P = some l ∧ ∀ t, (t ∈ l ↔ CacheOp.intern t ∈ ops) := by
  obtain ⟨hwfp, -, hiff⟩ := runOps_spec ops initProcess P (wfProcess_init H) hrun
  have hner := noEmptyRetired_run ops initProcess P (wfProcess_init H)
    noEmptyRetired_init hbound hrun
  obtain ⟨s₀, hs₀⟩ := hne
  obtain ⟨q₀, hq₀⟩ := (hiff s₀).mpr (Or.inr hs₀)
  obtain ⟨l, hdrain, hmem⟩ := drainIter_spec hwfp hner hq₀
  refine ⟨l, hdrain, fun t => ?_⟩
  rw [hmem t, hiff t]
  constructor
  · rintro (⟨q, hq⟩ | hmemop)
    · exact absurd hq not_PStored_init
    · exact hmemop
  · exact Or.inr

theorem claim_C5_witness :
    ∃ (P : Process) (l : List Bytes),
      runOps cHash [CacheOp.intern [9]] initProcess = some P ∧
      drainIter P = some l ∧ [9] ∈ l := by
  obtain ⟨ptr, P₂, hustr, -⟩ := ustr_spec (wfProcess_init cHash) ([9] : Bytes)
  have hstep : stepOp cHash (CacheOp.intern [9]) initProcess = some P₂ := by
    show (ustr cHash [9] initProcess).map (fun r => r.2) = some P₂
    rw [hustr]
    rfl
  have hrun : runOps cHash [CacheOp.intern [9]] initProcess = some P₂ := by
    show (stepOp cHash (CacheOp.intern [9]) initProcess).bind (runOps cHash []) =
      some P₂
    rw [hstep]
    rfl
  have hbound : ∀ s, CacheOp.intern s ∈ [CacheOp.intern ([9] : Bytes)] →
      sizeOfEntryHeader + (s.length + 1) ≤ INITIAL_ALLOC / NUM_BINS := by
    intro s hs
    rw [List.mem_singleton] at hs
    have hseq : s = [9] := CacheOp.intern.inj hs
    subst hseq
    decide
  obtain ⟨l, hdrain, hmem⟩ := claim_C5 hrun hbound ⟨[9], List.mem_singleton.mpr rfl⟩
  exact ⟨P₂, l, hrun, hdrain, (hmem [9]).mpr (List.mem_singleton.mpr rfl)⟩
